import Mathlib

set_option maxHeartbeats 1000000

/-!
# Verification of the boolexpr Boolean-expression engine

Shallow embedding of the `boolexpr` Python library.  The pure Python
modules under `src/` are translated directly.  The C extension module
`boolexpr.exprnode` (expression nodes, smart builders, `restrict`,
`simplify`, `to_cnf`) ships no source in the repository, so its
definitions are modelled from the specification (§3 data model, §4.1
arena builders, §4.2 smart-constructor reductions, §4.3 transforms);
each such definition carries a doc comment starting `Modelled from the
spec:`.
-/

namespace BoolExpr

/-- Modelled from the spec: §3 data model of `boolexpr.exprnode` (missing
C extension).  One immutable expression-node variant per row of the §3
table: constants, literals (`Var`/`Comp` carrying a positive variable
index), `Not`, the n-ary `And`/`Or`/`Xor`/`Eq`, `Impl` and `Ite`.
The `AtLeast` cardinality form lives in the Python layer
(`AtLeastOp`), not in `exprnode`, so it is not a node variant here.
Hash-consing makes node-identifier equality coincide with structural
equality (§3 "structural uniqueness"), so node identity is modelled by
structural equality of this tree type. -/
inductive Node where
  | zero : Node
  | one : Node
  | var (v : Nat) : Node
  | comp (v : Nat) : Node
  | not (x : Node) : Node
  | and (xs : List Node) : Node
  | or (xs : List Node) : Node
  | xor (xs : List Node) : Node
  | eq (xs : List Node) : Node
  | impl (p q : Node) : Node
  | ite (s d1 d0 : Node) : Node

mutual

/-- Boolean structural equality of nodes (used to furnish decidable
equality, matching the §3 hash-consing invariant that node identity is
structural identity). -/
def nbeq : Node → Node → Bool
  | .zero, .zero => true
  | .one, .one => true
  | .var v, .var w => v == w
  | .comp v, .comp w => v == w
  | .not x, .not y => nbeq x y
  | .and xs, .and ys => nbeqs xs ys
  | .or xs, .or ys => nbeqs xs ys
  | .xor xs, .xor ys => nbeqs xs ys
  | .eq xs, .eq ys => nbeqs xs ys
  | .impl p q, .impl r s => nbeq p r && nbeq q s
  | .ite s d1 d0, .ite t e1 e0 => nbeq s t && nbeq d1 e1 && nbeq d0 e0
  | _, _ => false

/-- Boolean structural equality of node lists. -/
def nbeqs : List Node → List Node → Bool
  | [], [] => true
  | x :: xs, y :: ys => nbeq x y && nbeqs xs ys
  | _, _ => false

end

mutual

theorem nbeq_iff : ∀ (a b : Node), nbeq a b = true ↔ a = b
  | .zero, b => by cases b <;> simp [nbeq]
  | .one, b => by cases b <;> simp [nbeq]
  | .var v, b => by cases b <;> simp [nbeq]
  | .comp v, b => by cases b <;> simp [nbeq]
  | .not x, b => by
      cases b <;> simp only [nbeq] <;> simp_all
      exact nbeq_iff x _
  | .and xs, b => by
      cases b <;> simp only [nbeq] <;> simp_all
      exact nbeqs_iff xs _
  | .or xs, b => by
      cases b <;> simp only [nbeq] <;> simp_all
      exact nbeqs_iff xs _
  | .xor xs, b => by
      cases b <;> simp only [nbeq] <;> simp_all
      exact nbeqs_iff xs _
  | .eq xs, b => by
      cases b <;> simp only [nbeq] <;> simp_all
      exact nbeqs_iff xs _
  | .impl p q, b => by
      cases b <;> simp only [nbeq] <;> simp_all
      rw [nbeq_iff p _, nbeq_iff q _]
  | .ite s d1 d0, b => by
      cases b <;> simp only [nbeq] <;> simp_all
      rw [nbeq_iff s _, nbeq_iff d1 _, nbeq_iff d0 _]
      tauto

theorem nbeqs_iff : ∀ (xs ys : List Node), nbeqs xs ys = true ↔ xs = ys
  | [], ys => by cases ys <;> simp [nbeqs]
  | x :: xs, ys => by
      cases ys <;> simp only [nbeqs] <;> simp_all
      rw [nbeq_iff x _, nbeqs_iff xs _]

end

instance : DecidableEq Node := fun a b => decidable_of_iff _ (nbeq_iff a b)

/-- Modelled from the spec: §3 "kind tag" exposed by every node of the
missing `exprnode` C extension (the integer constants `ZERO`, `ONE`,
`VAR`, `COMP`, `OP_NOT`, `OP_AND`, `OP_OR`, `OP_XOR`, `OP_EQ`,
`OP_IMPL`, `OP_ITE`). -/
inductive NKind where
  | kZERO | kONE | kVAR | kCOMP | kNOT | kAND | kOR | kXOR | kEQ | kIMPL | kITE
deriving DecidableEq, Repr

/-- Modelled from the spec: the `kind()` accessor of a node. -/
def Node.kindOf : Node → NKind
  | .zero => .kZERO
  | .one => .kONE
  | .var _ => .kVAR
  | .comp _ => .kCOMP
  | .not _ => .kNOT
  | .and _ => .kAND
  | .or _ => .kOR
  | .xor _ => .kXOR
  | .eq _ => .kEQ
  | .impl _ _ => .kIMPL
  | .ite _ _ _ => .kITE

/-- Translation of `NODE_LITERALS` (`expression/node/utils.py`):
the literal kind tags `{VAR, COMP}`. -/
def litKinds : List NKind := [.kVAR, .kCOMP]

/-- Translation of `NODE_CONSTANTS` (`expression/node/utils.py`). -/
def constKinds : List NKind := [.kZERO, .kONE]

/-- Translation of `NODE_ATOMS = NODE_LITERALS | NODE_CONSTANTS`
(`expression/node/utils.py`). -/
def atomKinds : List NKind := [.kVAR, .kCOMP, .kZERO, .kONE]

/-- Translation of `NODE_OPS` (`expression/node/utils.py`). -/
def opKinds : List NKind := [.kNOT, .kAND, .kOR, .kXOR, .kEQ, .kIMPL, .kITE]

/-- Modelled from the spec: the operand tuple in a node's "data" slot
(§3); atoms carry no operands. -/
def Node.operands : Node → List Node
  | .zero | .one | .var _ | .comp _ => []
  | .not x => [x]
  | .and xs | .or xs | .xor xs | .eq xs => xs
  | .impl p q => [p, q]
  | .ite s d1 d0 => [s, d1, d0]

mutual

/-- Modelled from the spec: the Boolean value of a node under an
assignment of the variables (§3 semantics column: And = conjunction,
Or = disjunction, Xor = parity, Eq = all-equal, Impl = implication,
Ite = if-then-else; `Comp v` is the negation of variable `v`). -/
def evalNode (A : Nat → Bool) : Node → Bool
  | .zero => false
  | .one => true
  | .var v => A v
  | .comp v => !(A v)
  | .not x => !(evalNode A x)
  | .and xs => evalList A xs |>.all id
  | .or xs => evalList A xs |>.any id
  | .xor xs => evalList A xs |>.foldr Bool.xor false
  | .eq xs => (evalList A xs |>.all id) || (evalList A xs |>.all (fun b => !b))
  | .impl p q => !(evalNode A p) || evalNode A q
  | .ite s d1 d0 => bif evalNode A s then evalNode A d1 else evalNode A d0

/-- Values of a list of nodes under an assignment. -/
def evalList (A : Nat → Bool) : List Node → List Bool
  | [] => []
  | x :: xs => evalNode A x :: evalList A xs

end

theorem evalList_eq_map (A : Nat → Bool) (xs : List Node) :
    evalList A xs = xs.map (evalNode A) := by
  induction xs with
  | nil => rfl
  | cons x xs ih => simp [evalList, ih]

/-- Modelled from the spec: §4.2 Not reductions of the missing
`exprnode.not_` builder: `Not(One)→Zero`, `Not(Zero)→One`,
`Not(Not(x))→x`, `Not(Comp(v))→Var(v)`, `Not(Var(v))→Comp(v)`;
otherwise a `Not` node persists (§3: "only persists when rewrites
cannot push it in"). -/
def not_ : Node → Node
  | .one => .zero
  | .zero => .one
  | .not x => x
  | .comp v => .var v
  | .var v => .comp v
  | x => .not x

/-- Modelled from the spec: the complement shape used by the §4.2
And/Or short-circuit rule "both `x` and `Not(x)` occur": constants and
literals pair with their duals, a `Not` node pairs with its child, and
any other node pairs with its `Not` wrapper. -/
def complementOf : Node → Node
  | .zero => .one
  | .one => .zero
  | .var v => .comp v
  | .comp v => .var v
  | .not x => x
  | x => .not x

/-- Modelled from the spec: §4.1 minimum-arity collapse for And
("And()→One"; a single remaining operand is returned as-is). -/
def collapseAnd : List Node → Node
  | [] => .one
  | [y] => y
  | ys => .and ys

/-- Modelled from the spec: §4.1 minimum-arity collapse for Or
("Or()→Zero"; a single remaining operand is returned as-is). -/
def collapseOr : List Node → Node
  | [] => .zero
  | [y] => y
  | ys => .or ys

/-- Modelled from the spec: §4.1 minimum-arity collapse for Xor
("Xor()→Zero"; a single remaining operand is returned as-is). -/
def collapseXor : List Node → Node
  | [] => .zero
  | [y] => y
  | ys => .xor ys

/-- Modelled from the spec: §4.2 And reductions of the missing
`exprnode.and_` builder: drop `One` operands, short-circuit to `Zero`
on a `Zero` operand or a complementary pair, deduplicate; zero
remaining operands yield `One` and a single one is returned as-is.
The arena-relative canonicalizations (flattening of nested Ands and
sorting by node identifier, §4.1/§9) concern only the hash-cons key
and are omitted from this model; they do not change the Boolean
value. -/
def and_ (xs : List Node) : Node :=
  if xs.contains Node.zero then .zero
  else
    let ys := (xs.filter (fun x => x != Node.one)).dedup
    if ys.any (fun x => ys.contains (complementOf x)) then .zero
    else collapseAnd ys

/-- Modelled from the spec: §4.2 "Or: dual of And with Zero/One and ¬
swapped" for the missing `exprnode.or_` builder. -/
def or_ (xs : List Node) : Node :=
  if xs.contains Node.one then .one
  else
    let ys := (xs.filter (fun x => x != Node.zero)).dedup
    if ys.any (fun x => ys.contains (complementOf x)) then .one
    else collapseOr ys

/-- Modelled from the spec: §4.2 Xor reductions of the missing
`exprnode.xor` builder: `Zero` operands drop, each `One` operand flips
the parity flag which is emitted as an outer negation if odd; zero
remaining operands yield `Zero` and a single one is returned as-is
(negated if the flag is set).  Flattening and pairwise cancellation
are arena canonicalizations omitted from this model; they do not
change the parity value. -/
def xor_ (xs : List Node) : Node :=
  let ys := xs.filter (fun x => x != Node.zero && x != Node.one)
  let base := collapseXor ys
  bif (xs.countP (fun x => x == Node.one)) % 2 == 1 then not_ base else base

/-- Modelled from the spec: §4.2 Impl reductions of the missing
`exprnode.impl` builder: `Impl(Zero,_)→One`, `Impl(_,One)→One`,
`Impl(One,q)→q`, `Impl(p,Zero)→Not(p)`, `Impl(p,p)→One`. -/
def impl_ (p q : Node) : Node :=
  if p = Node.zero then .one
  else if q = Node.one then .one
  else if p = Node.one then q
  else if q = Node.zero then not_ p
  else if p = q then .one
  else .impl p q

/-- Modelled from the spec: §4.2 Ite reductions of the missing
`exprnode.ite` builder: constant selectors choose a branch,
`Ite(s,a,a)→a`, `Ite(s,One,Zero)→s`, `Ite(s,Zero,One)→Not(s)`, and
`Ite(Not(s),a,b)→Ite(s,b,a)`. -/
def ite_ : Node → Node → Node → Node
  | .one, a, _ => a
  | .zero, _, b => b
  | .not s, a, b => ite_ s b a
  | s, a, b =>
    if a = b then a
    else if a = Node.one ∧ b = Node.zero then s
    else if a = Node.zero ∧ b = Node.one then not_ s
    else .ite s a b

/-- Modelled from the spec: §4.2 Eq reductions of the missing
`exprnode.eq` builder: `Eq()→One`, `Eq(x)→One`, `Eq(x,y)→Xnor(x,y)`;
with three or more operands a constant operand forces all operands to
equal that constant (And, or Nor of the rest), otherwise the n-ary
`Eq` node is kept. -/
def eq_ (xs : List Node) : Node :=
  match xs with
  | [] => .one
  | [_] => .one
  | [x, y] => not_ (xor_ [x, y])
  | _ =>
    if xs.contains Node.one then
      if xs.contains Node.zero then .zero
      else and_ (xs.filter (fun x => x != Node.one))
    else if xs.contains Node.zero then
      and_ ((xs.filter (fun x => x != Node.zero)).map not_)
    else .eq xs

theorem eval_not_ (A : Nat → Bool) (x : Node) :
    evalNode A (not_ x) = !(evalNode A x) := by
  cases x <;> simp [not_, evalNode]

theorem eval_complementOf (A : Nat → Bool) (x : Node) :
    evalNode A (complementOf x) = !(evalNode A x) := by
  cases x <;> simp [complementOf, evalNode]

theorem all_id_map (A : Nat → Bool) (xs : List Node) :
    (xs.map (evalNode A)).all id = xs.all (evalNode A) := by
  induction xs with
  | nil => rfl
  | cons x xs ih => simp [ih]

theorem any_id_map (A : Nat → Bool) (xs : List Node) :
    (xs.map (evalNode A)).any id = xs.any (evalNode A) := by
  induction xs with
  | nil => rfl
  | cons x xs ih => simp [ih]

theorem eval_and_node (A : Nat → Bool) (xs : List Node) :
    evalNode A (.and xs) = xs.all (evalNode A) := by
  rw [evalNode, evalList_eq_map, all_id_map]

theorem eval_or_node (A : Nat → Bool) (xs : List Node) :
    evalNode A (.or xs) = xs.any (evalNode A) := by
  rw [evalNode, evalList_eq_map, any_id_map]

theorem eval_collapseAnd (A : Nat → Bool) (ys : List Node) :
    evalNode A (collapseAnd ys) = ys.all (evalNode A) := by
  match ys with
  | [] => rfl
  | [y] => simp [collapseAnd]
  | y₁ :: y₂ :: yr =>
    show evalNode A (Node.and (y₁ :: y₂ :: yr)) = _
    rw [eval_and_node]

theorem eval_collapseOr (A : Nat → Bool) (ys : List Node) :
    evalNode A (collapseOr ys) = ys.any (evalNode A) := by
  match ys with
  | [] => rfl
  | [y] => simp [collapseOr]
  | y₁ :: y₂ :: yr =>
    show evalNode A (Node.or (y₁ :: y₂ :: yr)) = _
    rw [eval_or_node]

theorem all_dedup_eval (p : Node → Bool) (l : List Node) :
    l.dedup.all p = l.all p := by
  rw [Bool.eq_iff_iff]
  simp [List.all_eq_true]

theorem any_dedup_eval (p : Node → Bool) (l : List Node) :
    l.dedup.any p = l.any p := by
  rw [Bool.eq_iff_iff]
  simp [List.any_eq_true]

theorem all_filter_eval (p q : Node → Bool) (xs : List Node)
    (h : ∀ x ∈ xs, q x = false → p x = true) :
    (xs.filter q).all p = xs.all p := by
  induction xs with
  | nil => rfl
  | cons x xs ih =>
    have hx := h x (List.mem_cons_self x xs)
    cases hq : q x with
    | true => simp [List.filter_cons, hq, ih fun y hy => h y (List.mem_cons_of_mem x hy)]
    | false =>
      simp [List.filter_cons, hq, hx hq,
        ih fun y hy => h y (List.mem_cons_of_mem x hy)]

theorem any_filter_eval (p q : Node → Bool) (xs : List Node)
    (h : ∀ x ∈ xs, q x = false → p x = false) :
    (xs.filter q).any p = xs.any p := by
  induction xs with
  | nil => rfl
  | cons x xs ih =>
    have hx := h x (List.mem_cons_self x xs)
    cases hq : q x with
    | true => simp [List.filter_cons, hq, ih fun y hy => h y (List.mem_cons_of_mem x hy)]
    | false =>
      simp [List.filter_cons, hq, hx hq,
        ih fun y hy => h y (List.mem_cons_of_mem x hy)]

theorem all_eval_false_of_pair (A : Nat → Bool) (l : List Node)
    (h : ∃ x ∈ l, complementOf x ∈ l) : l.all (evalNode A) = false := by
  obtain ⟨x, hx, hc⟩ := h
  cases hall : l.all (evalNode A) with
  | false => rfl
  | true =>
    rw [List.all_eq_true] at hall
    have h1 := hall x hx
    have h2 := hall _ hc
    rw [eval_complementOf, h1] at h2
    exact absurd h2 (by simp)

theorem any_eval_true_of_pair (A : Nat → Bool) (l : List Node)
    (h : ∃ x ∈ l, complementOf x ∈ l) : l.any (evalNode A) = true := by
  obtain ⟨x, hx, hc⟩ := h
  rw [List.any_eq_true]
  cases hev : evalNode A x with
  | true => exact ⟨x, hx, hev⟩
  | false => exact ⟨_, hc, by rw [eval_complementOf, hev]; rfl⟩

/-- The §4.2 And builder computes the conjunction of its operands'
values. -/
theorem eval_and_ (A : Nat → Bool) (xs : List Node) :
    evalNode A (and_ xs) = xs.all (evalNode A) := by
  rw [and_]
  by_cases hz : xs.contains Node.zero
  · rw [if_pos hz]
    rw [List.contains_eq_any_beq, List.any_eq_true] at hz
    obtain ⟨x, hx, hbx⟩ := hz
    have hx0 : x = Node.zero := by
      have := eq_of_beq hbx
      simp_all
    subst hx0
    have : xs.all (evalNode A) = false :=
      List.all_eq_false.mpr ⟨Node.zero, hx, by simp [evalNode]⟩
    rw [this]; rfl
  · rw [if_neg hz]
    have hfilter : (xs.filter (fun x => x != Node.one)).all (evalNode A)
        = xs.all (evalNode A) := by
      apply all_filter_eval
      intro x _ hq
      have : x = Node.one := by
        simp only [bne, Bool.not_eq_false'] at hq
        exact eq_of_beq hq
      subst this; rfl
    have hysall : ((xs.filter (fun x => x != Node.one)).dedup).all (evalNode A)
        = xs.all (evalNode A) := by
      rw [all_dedup_eval, hfilter]
    rw [← hysall]
    generalize (xs.filter (fun x => x != Node.one)).dedup = ys at *
    by_cases hp : ys.any (fun x => ys.contains (complementOf x))
    · rw [if_pos hp]
      rw [List.any_eq_true] at hp
      obtain ⟨x, hx, hcx⟩ := hp
      rw [List.contains_eq_any_beq, List.any_eq_true] at hcx
      obtain ⟨y, hy, hby⟩ := hcx
      have hxy : y = complementOf x := by
        have := eq_of_beq hby
        simp_all
      have : ys.all (evalNode A) = false :=
        all_eval_false_of_pair A ys ⟨x, hx, hxy ▸ hy⟩
      rw [this]; rfl
    · rw [if_neg hp, eval_collapseAnd]

/-- The §4.2 Or builder computes the disjunction of its operands'
values. -/
theorem eval_or_ (A : Nat → Bool) (xs : List Node) :
    evalNode A (or_ xs) = xs.any (evalNode A) := by
  rw [or_]
  by_cases hz : xs.contains Node.one
  · rw [if_pos hz]
    rw [List.contains_eq_any_beq, List.any_eq_true] at hz
    obtain ⟨x, hx, hbx⟩ := hz
    have hx1 : x = Node.one := by
      have := eq_of_beq hbx
      simp_all
    subst hx1
    have : xs.any (evalNode A) = true :=
      List.any_eq_true.mpr ⟨Node.one, hx, by simp [evalNode]⟩
    rw [this]; rfl
  · rw [if_neg hz]
    have hfilter : (xs.filter (fun x => x != Node.zero)).any (evalNode A)
        = xs.any (evalNode A) := by
      apply any_filter_eval
      intro x _ hq
      have : x = Node.zero := by
        simp only [bne, Bool.not_eq_false'] at hq
        exact eq_of_beq hq
      subst this; rfl
    have hysany : ((xs.filter (fun x => x != Node.zero)).dedup).any (evalNode A)
        = xs.any (evalNode A) := by
      rw [any_dedup_eval, hfilter]
    rw [← hysany]
    generalize (xs.filter (fun x => x != Node.zero)).dedup = ys at *
    by_cases hp : ys.any (fun x => ys.contains (complementOf x))
    · rw [if_pos hp]
      rw [List.any_eq_true] at hp
      obtain ⟨x, hx, hcx⟩ := hp
      rw [List.contains_eq_any_beq, List.any_eq_true] at hcx
      obtain ⟨y, hy, hby⟩ := hcx
      have hxy : y = complementOf x := by
        have := eq_of_beq hby
        simp_all
      have : ys.any (evalNode A) = true :=
        any_eval_true_of_pair A ys ⟨x, hx, hxy ▸ hy⟩
      rw [this]; rfl
    · rw [if_neg hp, eval_collapseOr]

/-- Parity (exclusive or) of the values of a list of nodes. -/
def parEval (A : Nat → Bool) (xs : List Node) : Bool :=
  xs.foldr (fun x acc => Bool.xor (evalNode A x) acc) false

theorem eval_xor_node (A : Nat → Bool) (xs : List Node) :
    evalNode A (.xor xs) = parEval A xs := by
  rw [evalNode, evalList_eq_map]
  induction xs with
  | nil => rfl
  | cons x xs ih => simp [parEval, List.foldr_cons] at ih ⊢; rw [ih]

theorem eval_collapseXor (A : Nat → Bool) (ys : List Node) :
    evalNode A (collapseXor ys) = parEval A ys := by
  match ys with
  | [] => rfl
  | [y] => simp [collapseXor, parEval]
  | y₁ :: y₂ :: yr =>
    show evalNode A (Node.xor (y₁ :: y₂ :: yr)) = _
    rw [eval_xor_node]

theorem parEval_cons (A : Nat → Bool) (x : Node) (xs : List Node) :
    parEval A (x :: xs) = Bool.xor (evalNode A x) (parEval A xs) := rfl

theorem parEval_filter_consts (A : Nat → Bool) (xs : List Node) :
    parEval A xs
      = Bool.xor (decide ((xs.countP (fun x => x == Node.one)) % 2 = 1))
          (parEval A (xs.filter (fun x => x != Node.zero && x != Node.one))) := by
  induction xs with
  | nil => rfl
  | cons x xs ih =>
    rw [parEval_cons, ih]
    by_cases hone : x = Node.one
    · subst hone
      have hcount : ((Node.one :: xs).countP (fun x => x == Node.one))
          = (xs.countP (fun x => x == Node.one)) + 1 := by
        rw [List.countP_cons]; simp
      have hfil : (Node.one :: xs).filter (fun x => x != Node.zero && x != Node.one)
          = xs.filter (fun x => x != Node.zero && x != Node.one) := by
        simp [List.filter_cons]
      have hflip : decide (((xs.countP (fun x => x == Node.one)) + 1) % 2 = 1)
          = !(decide ((xs.countP (fun x => x == Node.one)) % 2 = 1)) := by
        rcases Nat.mod_two_eq_zero_or_one (xs.countP (fun x => x == Node.one)) with h | h <;>
          simp [Nat.add_mod, h]
      rw [hcount, hfil, hflip,
        show evalNode A Node.one = true from rfl]
      cases hd : decide ((xs.countP (fun x => x == Node.one)) % 2 = 1) <;>
        cases hp : parEval A (xs.filter (fun x => x != Node.zero && x != Node.one)) <;> rfl
    · by_cases hzero : x = Node.zero
      · subst hzero
        have hcount : ((Node.zero :: xs).countP (fun x => x == Node.one))
            = xs.countP (fun x => x == Node.one) := by
          rw [List.countP_cons]; simp
        have hfil : (Node.zero :: xs).filter (fun x => x != Node.zero && x != Node.one)
            = xs.filter (fun x => x != Node.zero && x != Node.one) := by
          simp [List.filter_cons]
        rw [hcount, hfil, show evalNode A Node.zero = false from rfl]
        cases hd : decide ((xs.countP (fun x => x == Node.one)) % 2 = 1) <;>
          cases hp : parEval A (xs.filter (fun x => x != Node.zero && x != Node.one)) <;> rfl
      · have hcount : ((x :: xs).countP (fun x => x == Node.one))
            = xs.countP (fun x => x == Node.one) := by
          rw [List.countP_cons]; simp [hone]
        have hkeep : (x != Node.zero && x != Node.one) = true := by
          simp [hone, hzero]
        have hfil : (x :: xs).filter (fun x => x != Node.zero && x != Node.one)
            = x :: xs.filter (fun x => x != Node.zero && x != Node.one) := by
          simp [List.filter_cons, hkeep]
        rw [hcount, hfil, parEval_cons]
        cases he : evalNode A x <;>
          cases hd : decide ((xs.countP (fun x => x == Node.one)) % 2 = 1) <;>
          cases hp : parEval A (xs.filter (fun x => x != Node.zero && x != Node.one)) <;> rfl

/-- The §4.2 Xor builder computes the parity of its operands'
values. -/
theorem eval_xor_ (A : Nat → Bool) (xs : List Node) :
    evalNode A (xor_ xs) = parEval A xs := by
  show evalNode A
      (bif (xs.countP (fun x => x == Node.one)) % 2 == 1
        then not_ (collapseXor (xs.filter (fun x => x != Node.zero && x != Node.one)))
        else collapseXor (xs.filter (fun x => x != Node.zero && x != Node.one))) = _
  rw [parEval_filter_consts A xs]
  cases hf : (xs.countP (fun x => x == Node.one)) % 2 == 1
  · have : decide ((xs.countP (fun x => x == Node.one)) % 2 = 1) = false := by
      simpa using hf
    rw [this]
    simp only [Bool.cond_false, eval_collapseXor]
    cases parEval A (xs.filter (fun x => x != Node.zero && x != Node.one)) <;> rfl
  · have : decide ((xs.countP (fun x => x == Node.one)) % 2 = 1) = true := by
      simpa using hf
    rw [this]
    simp only [Bool.cond_true, eval_not_, eval_collapseXor]
    cases parEval A (xs.filter (fun x => x != Node.zero && x != Node.one)) <;> rfl

/-- The §4.2 Impl builder computes the implication of its operands'
values. -/
theorem eval_impl_ (A : Nat → Bool) (p q : Node) :
    evalNode A (impl_ p q) = (!(evalNode A p) || evalNode A q) := by
  rw [impl_]
  split_ifs with h1 h2 h3 h4 h5 <;>
    first
      | (subst h1; simp [evalNode])
      | (subst h2; simp [evalNode])
      | (subst h3; simp [evalNode])
      | (subst h4; simp [evalNode, eval_not_])
      | (subst h5; simp [evalNode])
      | rfl

theorem all_not_id_map (A : Nat → Bool) (xs : List Node) :
    (xs.map (evalNode A)).all (fun b => !b) = xs.all (fun x => !(evalNode A x)) := by
  induction xs with
  | nil => rfl
  | cons x xs ih => simp only [List.map_cons, List.all_cons, ih]

theorem all_map_not_ (A : Nat → Bool) (l : List Node) :
    (l.map not_).all (evalNode A) = l.all (fun x => !(evalNode A x)) := by
  induction l with
  | nil => rfl
  | cons x l ih => simp only [List.map_cons, List.all_cons, ih, eval_not_]

theorem eval_eq_node (A : Nat → Bool) (xs : List Node) :
    evalNode A (.eq xs)
      = (xs.all (evalNode A) || xs.all (fun x => !(evalNode A x))) := by
  rw [evalNode, evalList_eq_map, all_id_map, all_not_id_map]

/-- The §4.2 Eq builder computes the all-equal function of its
operands' values. -/
theorem eval_eq_ (A : Nat → Bool) (xs : List Node) :
    evalNode A (eq_ xs)
      = (xs.all (evalNode A) || xs.all (fun x => !(evalNode A x))) := by
  match xs with
  | [] => rfl
  | [x] =>
    show evalNode A Node.one = _
    cases hx : evalNode A x <;> simp [evalNode, hx]
  | [x, y] =>
    show evalNode A (not_ (xor_ [x, y])) = _
    rw [eval_not_, eval_xor_]
    cases hx : evalNode A x <;> cases hy : evalNode A y <;>
      simp [parEval, hx, hy]
  | x₁ :: x₂ :: x₃ :: xr =>
    show evalNode A
      (if (x₁ :: x₂ :: x₃ :: xr).contains Node.one then
        if (x₁ :: x₂ :: x₃ :: xr).contains Node.zero then Node.zero
        else and_ ((x₁ :: x₂ :: x₃ :: xr).filter (fun x => x != Node.one))
      else if (x₁ :: x₂ :: x₃ :: xr).contains Node.zero then
        and_ (((x₁ :: x₂ :: x₃ :: xr).filter (fun x => x != Node.zero)).map not_)
      else Node.eq (x₁ :: x₂ :: x₃ :: xr)) = _
    generalize x₁ :: x₂ :: x₃ :: xr = l
    by_cases h1 : l.contains Node.one
    · have hmem1 : Node.one ∈ l := by
        rw [List.contains_eq_any_beq, List.any_eq_true] at h1
        obtain ⟨x, hx, hbx⟩ := h1
        have : x = Node.one := by have := eq_of_beq hbx; simp_all
        exact this ▸ hx
      have hnall : l.all (fun x => !(evalNode A x)) = false :=
        List.all_eq_false.mpr ⟨Node.one, hmem1, by simp [evalNode]⟩
      rw [if_pos h1, hnall, Bool.or_false]
      by_cases h0 : l.contains Node.zero
      · have hmem0 : Node.zero ∈ l := by
          rw [List.contains_eq_any_beq, List.any_eq_true] at h0
          obtain ⟨x, hx, hbx⟩ := h0
          have : x = Node.zero := by have := eq_of_beq hbx; simp_all
          exact this ▸ hx
        have : l.all (evalNode A) = false :=
          List.all_eq_false.mpr ⟨Node.zero, hmem0, by simp [evalNode]⟩
        rw [if_pos h0, this]; rfl
      · rw [if_neg h0, eval_and_]
        apply all_filter_eval
        intro x _ hq
        have : x = Node.one := by
          simp only [bne, Bool.not_eq_false'] at hq
          exact eq_of_beq hq
        subst this; rfl
    · rw [if_neg h1]
      by_cases h0 : l.contains Node.zero
      · have hmem0 : Node.zero ∈ l := by
          rw [List.contains_eq_any_beq, List.any_eq_true] at h0
          obtain ⟨x, hx, hbx⟩ := h0
          have : x = Node.zero := by have := eq_of_beq hbx; simp_all
          exact this ▸ hx
        have hall : l.all (evalNode A) = false :=
          List.all_eq_false.mpr ⟨Node.zero, hmem0, by simp [evalNode]⟩
        rw [if_pos h0, hall, Bool.false_or, eval_and_, all_map_not_]
        apply all_filter_eval
        intro x _ hq
        have : x = Node.zero := by
          simp only [bne, Bool.not_eq_false'] at hq
          exact eq_of_beq hq
        subst this; rfl
      · rw [if_neg h0, eval_eq_node]

/-- The §4.2 Ite builder computes if-then-else over its operands'
values. -/
theorem eval_ite_ (A : Nat → Bool) :
    ∀ (s a b : Node),
      evalNode A (ite_ s a b)
        = (bif evalNode A s then evalNode A a else evalNode A b)
  | .one, a, b => rfl
  | .zero, a, b => rfl
  | .not s, a, b => by
    show evalNode A (ite_ s b a) = _
    rw [eval_ite_ A s b a,
      show evalNode A (Node.not s) = !(evalNode A s) from rfl]
    cases evalNode A s <;> rfl
  | .var v, a, b => by
    show evalNode A
        (if a = b then a
          else if a = Node.one ∧ b = Node.zero then Node.var v
          else if a = Node.zero ∧ b = Node.one then not_ (Node.var v)
          else .ite (Node.var v) a b) = _
    split_ifs with h1 h2 h3
    · subst h1; cases hs : evalNode A (Node.var v) <;> rfl
    · obtain ⟨ha, hb⟩ := h2; subst ha; subst hb
      cases hs : evalNode A (Node.var v) <;> rfl
    · obtain ⟨ha, hb⟩ := h3; subst ha; subst hb
      rw [eval_not_]; cases hs : evalNode A (Node.var v) <;> rfl
    · rfl
  | .comp v, a, b => by
    show evalNode A
        (if a = b then a
          else if a = Node.one ∧ b = Node.zero then Node.comp v
          else if a = Node.zero ∧ b = Node.one then not_ (Node.comp v)
          else .ite (Node.comp v) a b) = _
    split_ifs with h1 h2 h3
    · subst h1; cases hs : evalNode A (Node.comp v) <;> rfl
    · obtain ⟨ha, hb⟩ := h2; subst ha; subst hb
      cases hs : evalNode A (Node.comp v) <;> rfl
    · obtain ⟨ha, hb⟩ := h3; subst ha; subst hb
      rw [eval_not_]; cases hs : evalNode A (Node.comp v) <;> rfl
    · rfl
  | .and xs, a, b => by
    show evalNode A
        (if a = b then a
          else if a = Node.one ∧ b = Node.zero then Node.and xs
          else if a = Node.zero ∧ b = Node.one then not_ (Node.and xs)
          else .ite (Node.and xs) a b) = _
    split_ifs with h1 h2 h3
    · subst h1; cases hs : evalNode A (Node.and xs) <;> rfl
    · obtain ⟨ha, hb⟩ := h2; subst ha; subst hb
      cases hs : evalNode A (Node.and xs) <;> rfl
    · obtain ⟨ha, hb⟩ := h3; subst ha; subst hb
      rw [eval_not_]; cases hs : evalNode A (Node.and xs) <;> rfl
    · rfl
  | .or xs, a, b => by
    show evalNode A
        (if a = b then a
          else if a = Node.one ∧ b = Node.zero then Node.or xs
          else if a = Node.zero ∧ b = Node.one then not_ (Node.or xs)
          else .ite (Node.or xs) a b) = _
    split_ifs with h1 h2 h3
    · subst h1; cases hs : evalNode A (Node.or xs) <;> rfl
    · obtain ⟨ha, hb⟩ := h2; subst ha; subst hb
      cases hs : evalNode A (Node.or xs) <;> rfl
    · obtain ⟨ha, hb⟩ := h3; subst ha; subst hb
      rw [eval_not_]; cases hs : evalNode A (Node.or xs) <;> rfl
    · rfl
  | .xor xs, a, b => by
    show evalNode A
        (if a = b then a
          else if a = Node.one ∧ b = Node.zero then Node.xor xs
          else if a = Node.zero ∧ b = Node.one then not_ (Node.xor xs)
          else .ite (Node.xor xs) a b) = _
    split_ifs with h1 h2 h3
    · subst h1; cases hs : evalNode A (Node.xor xs) <;> rfl
    · obtain ⟨ha, hb⟩ := h2; subst ha; subst hb
      cases hs : evalNode A (Node.xor xs) <;> rfl
    · obtain ⟨ha, hb⟩ := h3; subst ha; subst hb
      rw [eval_not_]; cases hs : evalNode A (Node.xor xs) <;> rfl
    · rfl
  | .eq xs, a, b => by
    show evalNode A
        (if a = b then a
          else if a = Node.one ∧ b = Node.zero then Node.eq xs
          else if a = Node.zero ∧ b = Node.one then not_ (Node.eq xs)
          else .ite (Node.eq xs) a b) = _
    split_ifs with h1 h2 h3
    · subst h1; cases hs : evalNode A (Node.eq xs) <;> rfl
    · obtain ⟨ha, hb⟩ := h2; subst ha; subst hb
      cases hs : evalNode A (Node.eq xs) <;> rfl
    · obtain ⟨ha, hb⟩ := h3; subst ha; subst hb
      rw [eval_not_]; cases hs : evalNode A (Node.eq xs) <;> rfl
    · rfl
  | .impl p q, a, b => by
    show evalNode A
        (if a = b then a
          else if a = Node.one ∧ b = Node.zero then Node.impl p q
          else if a = Node.zero ∧ b = Node.one then not_ (Node.impl p q)
          else .ite (Node.impl p q) a b) = _
    split_ifs with h1 h2 h3
    · subst h1; cases hs : evalNode A (Node.impl p q) <;> rfl
    · obtain ⟨ha, hb⟩ := h2; subst ha; subst hb
      cases hs : evalNode A (Node.impl p q) <;> rfl
    · obtain ⟨ha, hb⟩ := h3; subst ha; subst hb
      rw [eval_not_]; cases hs : evalNode A (Node.impl p q) <;> rfl
    · rfl
  | .ite s d1 d0, a, b => by
    show evalNode A
        (if a = b then a
          else if a = Node.one ∧ b = Node.zero then Node.ite s d1 d0
          else if a = Node.zero ∧ b = Node.one then not_ (Node.ite s d1 d0)
          else .ite (Node.ite s d1 d0) a b) = _
    split_ifs with h1 h2 h3
    · subst h1; cases hs : evalNode A (Node.ite s d1 d0) <;> rfl
    · obtain ⟨ha, hb⟩ := h2; subst ha; subst hb
      cases hs : evalNode A (Node.ite s d1 d0) <;> rfl
    · obtain ⟨ha, hb⟩ := h3; subst ha; subst hb
      rw [eval_not_]; cases hs : evalNode A (Node.ite s d1 d0) <;> rfl
    · rfl

/-! ## Cardinality encoder (`expression/node/cardinality.py`) -/

/-- Translation of `remove_constants` (`expression/node/cardinality.py`):
drop `Zero` operands, count each `One` operand as a `-1` adjustment of
`k`, and keep the remaining operands in order. -/
def remove_constants (nodes : List Node) : Int × List Node :=
  nodes.foldl
    (fun acc node =>
      if node.kindOf = NKind.kZERO then acc
      else if node.kindOf = NKind.kONE then (acc.1 - 1, acc.2)
      else (acc.1, acc.2 ++ [node]))
    ((0 : Int), ([] : List Node))

/-- Translation of `at_least` (`expression/node/cardinality.py`,
lines 67-82).  Python's `itertools.combinations(nodes, r)` enumerates
exactly the length-`r` subsequences of `nodes`, modelled by
`List.sublistsLen r nodes` (same elements, possibly another order,
which the `and_`/`or_` builders do not observe semantically). -/
def at_least (k : Int) (nodes : List Node) (as_cnf : Bool) : Node :=
  if k ≤ 0 then .one
  else if k = 1 then or_ nodes
  else if k = (nodes.length : Int) then and_ nodes
  else if k > (nodes.length : Int) then .zero
  else if as_cnf then
    and_ ((List.sublistsLen ((nodes.length : Int) - k + 1).toNat nodes).map or_)
  else
    or_ ((List.sublistsLen k.toNat nodes).map and_)

theorem countP_not_add (p : Node → Bool) (l : List Node) :
    l.countP p + l.countP (fun x => !(p x)) = l.length := by
  induction l with
  | nil => rfl
  | cons x l ih =>
    rw [List.countP_cons, List.countP_cons, List.length_cons]
    cases h : p x <;> simp [h] <;> omega

theorem exists_all_sublist (p : Node → Bool) (l : List Node) (r : Nat) :
    (∃ S : List Node, List.Sublist S l ∧ S.length = r ∧ ∀ x ∈ S, p x = true) ↔ r ≤ l.countP p := by
  constructor
  · rintro ⟨S, hsub, hlen, hall⟩
    have hfe : S.filter p = S := List.filter_eq_self.mpr hall
    have : List.Sublist (S.filter p) (l.filter p) := List.Sublist.filter p hsub
    rw [hfe] at this
    have hle := this.length_le
    rw [hlen, ← List.countP_eq_length_filter] at hle
    exact hle
  · intro h
    refine ⟨(l.filter p).take r, ?_, ?_, ?_⟩
    · exact (List.take_sublist r (l.filter p)).trans (List.filter_sublist l)
    · rw [List.length_take, ← List.countP_eq_length_filter]
      omega
    · intro x hx
      exact List.of_mem_filter (List.mem_of_mem_take hx)

theorem forall_sublist_any (p : Node → Bool) (l : List Node) (r : Nat) :
    (∀ S : List Node, List.Sublist S l → S.length = r → S.any p = true)
      ↔ l.countP (fun x => !(p x)) < r := by
  constructor
  · intro h
    by_contra hcon
    push_neg at hcon
    obtain ⟨S, hsub, hlen, hall⟩ :=
      (exists_all_sublist (fun x => !(p x)) l r).mpr hcon
    have := h S hsub hlen
    rw [List.any_eq_true] at this
    obtain ⟨x, hx, hpx⟩ := this
    have := hall x hx
    rw [hpx] at this
    exact absurd this (by simp)
  · intro h S hsub hlen
    by_contra hcon
    have hall : ∀ x ∈ S, (!(p x)) = true := by
      intro x hx
      rw [Bool.not_eq_true']
      by_contra hpx
      rw [Bool.not_eq_false] at hpx
      exact hcon (List.any_eq_true.mpr ⟨x, hx, hpx⟩)
    have : r ≤ l.countP (fun x => !(p x)) :=
      (exists_all_sublist (fun x => !(p x)) l r).mp ⟨S, hsub, hlen, hall⟩
    omega

theorem complementOf_ne_self (x : Node) : complementOf x ≠ x := by
  cases x <;> simp only [complementOf] <;> intro h <;> cases h

/-- On a single operand the Or and And builders agree (both collapse
to the operand, or to the constant itself). -/
theorem or_singleton_eq_and_singleton (x : Node) : or_ [x] = and_ [x] := by
  by_cases hx1 : x = Node.one
  · subst hx1; rfl
  · by_cases hx0 : x = Node.zero
    · subst hx0; rfl
    · have hc1 : ([x].contains Node.one) = false := by
        simp [List.contains_cons]
        exact fun h => hx1 h.symm
      have hc0 : ([x].contains Node.zero) = false := by
        simp [List.contains_cons]
        exact fun h => hx0 h.symm
      have hpair : ∀ l : List Node, l = [x] →
          (l.any (fun y => l.contains (complementOf y))) = false := by
        intro l hl; subst hl
        simp only [List.any_cons, List.any_nil, Bool.or_false,
          List.contains_cons, List.contains_nil, beq_eq_false_iff_ne, ne_eq]
        exact complementOf_ne_self x
      rw [or_, and_, hc1, hc0]
      simp only [Bool.false_eq_true, if_false]
      have hfil1 : [x].filter (fun y => y != Node.one) = [x] := by
        simp [List.filter_cons, hx1]
      have hfil0 : [x].filter (fun y => y != Node.zero) = [x] := by
        simp [List.filter_cons, hx0]
      rw [hfil1, hfil0]
      have hded : ([x] : List Node).dedup = [x] := by
        rw [List.dedup_cons_of_not_mem (by simp), List.dedup_nil]
      rw [hded, hpair _ rfl]
      rfl

theorem all_map_or (A : Nat → Bool) (ls : List (List Node)) :
    (ls.map or_).all (evalNode A) = ls.all (fun S => S.any (evalNode A)) := by
  induction ls with
  | nil => rfl
  | cons S ls ih => simp only [List.map_cons, List.all_cons, ih, eval_or_]

theorem any_map_and (A : Nat → Bool) (ls : List (List Node)) :
    (ls.map and_).any (evalNode A) = ls.any (fun S => S.all (evalNode A)) := by
  induction ls with
  | nil => rfl
  | cons S ls ih => simp only [List.map_cons, List.any_cons, ih, eval_and_]

theorem eval_cnf_branch (A : Nat → Bool) (nodes : List Node) (r : Nat) :
    evalNode A (and_ ((List.sublistsLen r nodes).map or_))
      = decide (nodes.countP (fun x => !(evalNode A x)) < r) := by
  rw [eval_and_, all_map_or, Bool.eq_iff_iff]
  simp only [List.all_eq_true, List.mem_sublistsLen, decide_eq_true_eq]
  constructor
  · intro h
    rw [← forall_sublist_any (evalNode A) nodes r]
    intro S hsub hlen
    exact h S ⟨hsub, hlen⟩
  · intro h S hS
    exact (forall_sublist_any (evalNode A) nodes r).mpr h S hS.1 hS.2

theorem eval_dnf_branch (A : Nat → Bool) (nodes : List Node) (r : Nat) :
    evalNode A (or_ ((List.sublistsLen r nodes).map and_))
      = decide (r ≤ nodes.countP (evalNode A)) := by
  rw [eval_or_, any_map_and, Bool.eq_iff_iff]
  simp only [List.any_eq_true, List.mem_sublistsLen, decide_eq_true_eq]
  constructor
  · rintro ⟨S, ⟨hsub, hlen⟩, hev⟩
    rw [List.all_eq_true] at hev
    exact (exists_all_sublist (evalNode A) nodes r).mp ⟨S, hsub, hlen, hev⟩
  · intro h
    obtain ⟨S, hsub, hlen, hall⟩ := (exists_all_sublist (evalNode A) nodes r).mpr h
    exact ⟨S, ⟨hsub, hlen⟩, List.all_eq_true.mpr hall⟩

/-- C1: for every integer `k`, operand list `nodes` and flag `as_cnf`,
the expression built by `at_least` evaluates, under every assignment,
to true exactly when at least `k` of the operands evaluate to true;
and the edge forms hold: `k ≤ 0` yields One, `k = 1` the Or of the
operands, `k = n` the And of the operands, and `k > n` Zero. -/
theorem at_least_correct (k : Int) (nodes : List Node) (as_cnf : Bool) :
    (∀ A : Nat → Bool,
        evalNode A (at_least k nodes as_cnf)
          = decide (k ≤ (nodes.countP (evalNode A) : Int)))
    ∧ (k ≤ 0 → at_least k nodes as_cnf = Node.one)
    ∧ (k = 1 → at_least k nodes as_cnf = or_ nodes)
    ∧ (k = (nodes.length : Int) → at_least k nodes as_cnf = and_ nodes)
    ∧ ((nodes.length : Int) < k → at_least k nodes as_cnf = Node.zero) := by
  refine ⟨?_, ?_, ?_, ?_, ?_⟩
  · intro A
    rw [at_least]
    split_ifs with h0 h1 hn hgt hcnf
    · have hle : k ≤ (nodes.countP (evalNode A) : Int) :=
        le_trans h0 (Int.ofNat_nonneg _)
      rw [show evalNode A Node.one = true from rfl]
      exact (decide_eq_true hle).symm
    · subst h1
      rw [eval_or_, Bool.eq_iff_iff]
      simp only [List.any_eq_true, decide_eq_true_eq]
      constructor
      · rintro ⟨x, hx, hev⟩
        have : 0 < nodes.countP (evalNode A) := List.countP_pos_iff.mpr ⟨x, hx, hev⟩
        omega
      · intro h
        have : 0 < nodes.countP (evalNode A) := by omega
        exact List.countP_pos_iff.mp this
    · subst hn
      rw [eval_and_, Bool.eq_iff_iff]
      simp only [decide_eq_true_eq]
      constructor
      · intro hall
        have : nodes.countP (evalNode A) = nodes.length :=
          List.countP_eq_length.mpr (List.all_eq_true.mp hall)
        omega
      · intro hle
        have hub := List.countP_le_length (p := evalNode A) (l := nodes)
        have hcnt : nodes.countP (evalNode A) = nodes.length := by omega
        exact List.all_eq_true.mpr (List.countP_eq_length.mp hcnt)
    · have hub := List.countP_le_length (p := evalNode A) (l := nodes)
      have hnle : ¬ (k ≤ (nodes.countP (evalNode A) : Int)) := by omega
      rw [show evalNode A Node.zero = false from rfl]
      exact (decide_eq_false hnle).symm
    · rw [eval_cnf_branch, decide_eq_decide]
      have hc := countP_not_add (evalNode A) nodes
      have hub := List.countP_le_length (p := evalNode A) (l := nodes)
      omega
    · rw [eval_dnf_branch, decide_eq_decide]
      omega
  · intro h0
    rw [at_least, if_pos h0]
  · intro h1
    subst h1
    rw [at_least, if_neg (by omega), if_pos rfl]
  · intro hn
    subst hn
    rw [at_least]
    by_cases h0 : (nodes.length : Int) ≤ 0
    · rw [if_pos h0]
      have hnil : nodes = [] := by
        cases nodes with
        | nil => rfl
        | cons x tl => exfalso; simp only [List.length_cons] at h0; omega
      subst hnil; rfl
    · rw [if_neg h0]
      by_cases h1 : (nodes.length : Int) = 1
      · rw [if_pos h1]
        cases nodes with
        | nil => exfalso; simp at h1
        | cons x tl =>
          cases tl with
          | nil => exact or_singleton_eq_and_singleton x
          | cons y tr => exfalso; simp only [List.length_cons] at h1; omega
      · rw [if_neg h1, if_pos rfl]
  · intro hgt
    rw [at_least]
    have hn0 : (0 : Int) ≤ (nodes.length : Int) := Int.ofNat_nonneg _
    rw [if_neg (by omega)]
    by_cases h1 : k = 1
    · subst h1
      rw [if_pos rfl]
      have hnil : nodes = [] := by
        cases nodes with
        | nil => rfl
        | cons x tl => exfalso; simp only [List.length_cons] at hgt; omega
      subst hnil; rfl
    · rw [if_neg h1, if_neg (by omega), if_pos hgt]

/-- Witness for `at_least_correct`: concrete instances of each
hypothesis-guarded conjunct, at `k = 2` over three variables and at
the edge values of `k`. -/
theorem at_least_correct_witness :
    evalNode (fun v => v = 1) (at_least 2 [Node.var 1, Node.var 2, Node.var 3] true)
        = decide ((2 : Int) ≤ (1 : Int))
    ∧ at_least (-1) [Node.var 1] true = Node.one
    ∧ at_least 1 [Node.var 1, Node.var 2] true = or_ [Node.var 1, Node.var 2]
    ∧ at_least 2 [Node.var 1, Node.var 2] true = and_ [Node.var 1, Node.var 2]
    ∧ at_least 3 [Node.var 1, Node.var 2] true = Node.zero := by
  refine ⟨?_, ?_, ?_, ?_, ?_⟩
  · rw [(at_least_correct 2 [Node.var 1, Node.var 2, Node.var 3] true).1
      (fun v => v = 1)]
    rfl
  · exact (at_least_correct (-1) [Node.var 1] true).2.1 (by omega)
  · exact (at_least_correct 1 [Node.var 1, Node.var 2] true).2.2.1 rfl
  · exact (at_least_correct 2 [Node.var 1, Node.var 2] true).2.2.2.1 (by simp)
  · exact (at_least_correct 3 [Node.var 1, Node.var 2] true).2.2.2.2 (by simp)

/-! ## Normal-form containers (`expr.py`, class `NormalForm` and its
two subclasses `DisjNormalForm` / `ConjNormalForm`) -/

/-- The concrete class of a `NormalForm` value (`DisjNormalForm` =
DNF, `ConjNormalForm` = CNF; `DimacsCNF` is a `ConjNormalForm` that
only changes printing). -/
inductive NFKind where
  | dnf
  | cnf
deriving DecidableEq, Repr

/-- Translation of `NormalForm(nvars, clauses)` (`expr.py`): `nvars`
and a set of frozen sets of signed integer literals, together with the
concrete subclass. -/
structure NormalForm where
  kind : NFKind
  nvars : Nat
  clauses : Finset (Finset Int)
deriving DecidableEq

/-- Translation of `DisjNormalForm.invert` / `ConjNormalForm.invert`
(`expr.py`, lines 949-951 and 961-963): negate every literal of every
clause and swap the concrete class. -/
def NormalForm.invert (nf : NormalForm) : NormalForm where
  kind := match nf.kind with | .dnf => .cnf | .cnf => .dnf
  nvars := nf.nvars
  clauses := nf.clauses.image (fun clause => clause.image (fun idx => -idx))

theorem clause_negate_negate (c : Finset Int) :
    (c.image (fun idx => -idx)).image (fun idx => -idx) = c := by
  rw [Finset.image_image]
  have : ((fun idx : Int => -idx) ∘ fun idx : Int => -idx) = id := by
    funext i; simp
  rw [this, Finset.image_id]

/-- Translation of Python's bitwise complement `~v` on an `int`:
`~v = -v - 1`. -/
def pyInvert (v : Nat) : Int := -(v : Int) - 1

/-- Translation of `bit_on` (`math.py`): `bool((num >> bit) & 1)`. -/
def bit_on (num bit : Nat) : Bool := (num >>> bit) &&& 1 == 1

/-- Translation of `NormalForm.reduce` (`expr.py`, lines 927-939).
`support` is `{1..nvars}`; each clause is extended by every 0/1
pattern over its missing variables, taking `v` for a 1-bit and the
Python expression `~v` (bitwise integer complement, i.e. `-v-1`) for
a 0-bit.  Python iterates the set `support - {abs(uniqid) ...}` in an
unspecified order; the model uses ascending order, which generates
the same set of completed clauses because all `2^len(vs)` sign
patterns are enumerated. -/
def NormalForm.reduce (nf : NormalForm) : NormalForm where
  kind := nf.kind
  nvars := nf.nvars
  clauses := nf.clauses.biUnion (fun clause =>
    let vs := (List.range' 1 nf.nvars).filter
      (fun v => v ∉ clause.image Int.natAbs)
    if vs.isEmpty then {clause}
    else
      ((List.range (2 ^ vs.length)).map (fun num =>
        clause ∪ (vs.enum.map (fun p =>
          if bit_on num p.1 then (p.2 : Int) else pyInvert p.2)).toFinset)).toFinset)

/-- C7: `invert` negates every literal of every clause, swaps the
DNF/CNF class, keeps `nvars`, and is an involution. -/
theorem normalform_invert_involution (nf : NormalForm) :
    nf.invert.kind = (match nf.kind with | .dnf => .cnf | .cnf => .dnf)
    ∧ nf.invert.nvars = nf.nvars
    ∧ nf.invert.clauses
        = nf.clauses.image (fun clause => clause.image (fun idx => -idx))
    ∧ nf.invert.invert = nf := by
  obtain ⟨k, n, cs⟩ := nf
  refine ⟨rfl, rfl, rfl, ?_⟩
  simp only [NormalForm.invert, Finset.image_image]
  congr 1
  · cases k <;> rfl
  · have : ((fun clause : Finset Int => clause.image (fun idx => -idx)) ∘
        fun clause : Finset Int => clause.image (fun idx => -idx)) = id := by
      funext c
      simp only [Function.comp_apply, clause_negate_negate, id_eq]
    rw [this, Finset.image_id]

/-- C5: evaluation of `NormalForm.reduce` at the failing input
`ConjNormalForm(2, {frozenset({1})})`.  Because line 935 of `expr.py`
applies Python's bitwise complement `~v = -v-1` to the missing
variable `v` (instead of the arithmetic negation `-v` used everywhere
else in the class), the completion of clause `{1}` over the missing
variable `2` produces the out-of-range literal `-3`: the result is
`{{1,-3},{1,2}}`, whose first clause mentions neither `+2` nor `-2`,
so the clauses are not minterm/maxterm completions over variables
`1..nvars`. -/
theorem normalform_reduce_pybitnot_bug :
    (NormalForm.mk .cnf 2 {{1}}).reduce
        = NormalForm.mk .cnf 2 {{(1 : Int), -3}, {1, 2}}
    ∧ ({(1 : Int), -3} : Finset Int) ∈ (NormalForm.mk .cnf 2 {{1}}).reduce.clauses
    ∧ (2 : Int) ∉ ({(1 : Int), -3} : Finset Int)
    ∧ (-2 : Int) ∉ ({(1 : Int), -3} : Finset Int) := by
  refine ⟨by decide, by decide, by decide, by decide⟩

/-! ## Variable universe (`universe.py`, class `Universe`) -/

/-- Modelled from the spec: §4.1 `lit(signed_idx)` of the missing
`exprnode` C extension: `lit(+i)` returns a `Var`, `lit(-i)` a `Comp`;
index `0` is invalid (`InvalidLiteralIndex`) and is never passed on
the modelled paths (`Variable.create` asserts `idx > 0`). -/
def lit (idx : Int) : Node :=
  if 0 < idx then .var idx.toNat else .comp (-idx).toNat

/-- Translation of `Variable` (`variable/variable.py`): a label, a
positive index and the pair `(neg_lit, pos_lit)` of literal nodes.
Labels are arbitrary hashable values in Python; they are modelled by
natural numbers. -/
structure PyVariable where
  label : Nat
  idx : Nat
  literals : Node × Node
deriving DecidableEq

instance : Inhabited PyVariable := ⟨⟨0, 1, (lit (-1), lit 1)⟩⟩

/-- Translation of `Variable.create` (`variable/variable.py`,
lines 59-69): `literals = (lit(-idx), lit(idx))`. -/
def Variable.create (label : Nat) (idx : Nat) : PyVariable where
  label := label
  idx := idx
  literals := (lit (-(idx : Int)), lit (idx : Int))

/-- Translation of `Universe` (`universe.py`): `label_to_idx` is a
Python dict modelled as an insertion-ordered association list,
`idx_to_data` the list of created variables, `idx_offset` the
validated offset (`>= 1`). -/
structure Universe where
  label_to_idx : List (Nat × Nat)
  idx_to_data : List PyVariable
  idx_offset : Nat
deriving DecidableEq

/-- Translation of `Universe.get_or_make` (`universe.py`,
lines 41-47): look the label up; on a miss create
`Variable.create(label, idx_offset + len(idx_to_data))`, append it
and record the mapping; return `idx_to_data[idx]`. -/
def Universe.get_or_make (u : Universe) (label : Nat) : PyVariable × Universe :=
  match u.label_to_idx.lookup label with
  | some idx => (u.idx_to_data.getD idx default, u)
  | none =>
    let idx := u.idx_to_data.length
    let v := Variable.create label (u.idx_offset + idx)
    (v,
      { u with
        idx_to_data := u.idx_to_data ++ [v]
        label_to_idx := u.label_to_idx ++ [(label, idx)] })

/-- The invariant `Universe._assert_valid` maintains (`universe.py`,
lines 99-107, restricted to the fields the model carries): positive
offset, matching lengths, in-range stored indices, and stored
variable `i` carrying index `idx_offset + i`. -/
def Universe.WF (u : Universe) : Prop :=
  1 ≤ u.idx_offset
  ∧ u.label_to_idx.length = u.idx_to_data.length
  ∧ (∀ p ∈ u.label_to_idx, p.2 < u.idx_to_data.length)
  ∧ (∀ i < u.idx_to_data.length,
      (u.idx_to_data.getD i default).idx = u.idx_offset + i)

/-- C9: on a well-formed universe, `get_or_make` returns a variable
with a positive index, preserves the invariant, returns the identical
variable (and unchanged universe) when called again with the same
label; a fresh label receives index `idx_offset + #previously created
variables` and grows the universe length by exactly one, while a
known label leaves the universe unchanged. -/
theorem universe_get_or_make_spec (u : Universe) (label : Nat) (hwf : u.WF) :
    0 < (u.get_or_make label).1.idx
    ∧ (u.get_or_make label).2.WF
    ∧ ((u.get_or_make label).2.get_or_make label
        = ((u.get_or_make label).1, (u.get_or_make label).2))
    ∧ (u.label_to_idx.lookup label = none →
        (u.get_or_make label).1.idx = u.idx_offset + u.idx_to_data.length
        ∧ (u.get_or_make label).2.label_to_idx.length
            = u.label_to_idx.length + 1)
    ∧ (u.label_to_idx.lookup label ≠ none → (u.get_or_make label).2 = u) := by
  obtain ⟨hoff, hlen, hmem, hidx⟩ := hwf
  cases hl : u.label_to_idx.lookup label with
  | some i =>
    have hi : i < u.idx_to_data.length := by
      obtain ⟨l₁, l₂, hdecomp, -⟩ := List.lookup_eq_some_iff.mp hl
      exact hmem (label, i) (by rw [hdecomp]; simp)
    have hgm : u.get_or_make label = (u.idx_to_data.getD i default, u) := by
      rw [Universe.get_or_make, hl]
    rw [hgm]
    refine ⟨?_, ⟨hoff, hlen, hmem, hidx⟩, ?_, ?_, ?_⟩
    · rw [hidx i hi]; omega
    · rw [Universe.get_or_make, hl]
    · intro hnone; cases hnone
    · intro _; rfl
  | none =>
    have hgm : u.get_or_make label
        = (Variable.create label (u.idx_offset + u.idx_to_data.length),
          { u with
            idx_to_data := u.idx_to_data
              ++ [Variable.create label (u.idx_offset + u.idx_to_data.length)]
            label_to_idx := u.label_to_idx
              ++ [(label, u.idx_to_data.length)] }) := by
      rw [Universe.get_or_make, hl]
    rw [hgm]
    refine ⟨by simp [Variable.create]; omega, ?_, ?_, ?_, ?_⟩
    · refine ⟨hoff, by simp [hlen], ?_, ?_⟩
      · intro p hp
        rw [List.mem_append] at hp
        rcases hp with hp | hp
        · have := hmem p hp
          simp only [List.length_append, List.length_cons, List.length_nil]
          omega
        · rw [List.mem_singleton] at hp
          subst hp
          simp
      · intro i hi
        simp only [List.length_append, List.length_cons, List.length_nil] at hi
        by_cases hlt : i < u.idx_to_data.length
        · rw [List.getD_append _ _ _ _ hlt]
          exact hidx i hlt
        · have hieq : i = u.idx_to_data.length := by omega
          subst hieq
          rw [List.getD_eq_getElem?_getD, List.getElem?_append_right (le_refl _)]
          simp [Variable.create]
    · rw [Universe.get_or_make]
      rw [List.lookup_append, hl, Option.none_or, List.lookup_cons_self]
      simp only [Option.some.injEq]
      rw [List.getD_eq_getElem?_getD, List.getElem?_append_right (le_refl _)]
      simp
    · intro _
      constructor
      · simp [Variable.create]
      · simp
    · intro hcon; exact absurd rfl hcon

/-- Witness for `universe_get_or_make_spec`: the empty universe with
offset 1 is well-formed and a fresh label receives index 1. -/
theorem universe_get_or_make_spec_witness :
    0 < ((Universe.mk [] [] 1).get_or_make 42).1.idx
    ∧ ((Universe.mk [] [] 1).get_or_make 42).1.idx = 1
    ∧ ((Universe.mk [] [] 1).get_or_make 42).2.label_to_idx.length = 1 := by
  have hwf : (Universe.mk [] [] 1).WF := by
    refine ⟨le_refl 1, rfl, ?_, ?_⟩
    · intro p hp; cases hp
    · intro i hi; cases hi
  have h := universe_get_or_make_spec (Universe.mk [] [] 1) 42 hwf
  refine ⟨h.1, ?_, (h.2.2.2.1 rfl).2⟩
  have := (h.2.2.2.1 rfl).1
  simpa using this

/-! ## Python cross-type comparison of kind tags with node objects -/

/-- Translation of the Python expression `node.kind() == exprnode.Zero`
(and `... == exprnode.One`): the left side is an `int` kind tag, the
right side the `ExprNode` singleton object.  In Python, `int.__eq__`
returns `NotImplemented` for an `ExprNode` and the reflected
comparison falls back to object identity, so the comparison is always
`False`.  Occurs in `SimpleExpression.to_atom` (`expression/simple.py`
line 108) and in `AtLeastOp.is_tautology` / `is_contradiction`
(`expression/cardinality.py` lines 49 and 53). -/
def kindEqNodePy (_t : NKind) (_n : Node) : Bool := false

/-- Translation of `SimpleExpression.to_atom` (`expression/simple.py`,
lines 103-110): literals are returned as-is; the One constant is
detected by the integer tag `exprnode.ONE`; the Zero branch compares
the integer tag against the node object `exprnode.Zero` (not the tag
`ZERO`), so it is never taken and Zero falls through to the
`ValueError`. -/
def to_atom (n : Node) : Except String Node :=
  if n.kindOf ∈ litKinds then .ok n
  else if n.kindOf = NKind.kONE then .ok Node.one
  else if kindEqNodePy n.kindOf Node.zero then .ok Node.zero
  else .error "Cannot convert non-constant expression to atom."

/-- C10: `to_atom` returns the expression itself for a variable or
complement literal, a One expression for the One constant, and raises
`ValueError` for the Zero constant and for every operator expression,
because the Zero branch compares the integer kind tag against the
Zero node object and is never taken. -/
theorem to_atom_zero_raises :
    (∀ v, to_atom (Node.var v) = .ok (Node.var v))
    ∧ (∀ v, to_atom (Node.comp v) = .ok (Node.comp v))
    ∧ to_atom Node.one = .ok Node.one
    ∧ to_atom Node.zero
        = .error "Cannot convert non-constant expression to atom."
    ∧ (∀ n : Node, n.kindOf ∈ opKinds →
        to_atom n = .error "Cannot convert non-constant expression to atom.") := by
  refine ⟨fun v => rfl, fun v => rfl, rfl, rfl, ?_⟩
  intro n h
  cases n <;> simp_all [to_atom, Node.kindOf, litKinds, opKinds, kindEqNodePy]

/-- Witness for `to_atom_zero_raises`: the operator expression
`And()` raises. -/
theorem to_atom_zero_raises_witness :
    to_atom (Node.and [])
      = .error "Cannot convert non-constant expression to atom." :=
  to_atom_zero_raises.2.2.2.2 (Node.and []) (by decide)

/-! ## `AtLeastOp.is_contradiction` (`expression/cardinality.py`) -/

/-- Translation of `AtLeastOp.is_contradiction`
(`expression/cardinality.py`, lines 51-53):
`self.k > len(self.nodes) or (self.k <= sum(node.kind() ==
exprnode.Zero for node in self.nodes))`.  The generator compares the
integer kind tag against the node object `exprnode.Zero`, which is
always `False` in Python, so the sum is always `0`. -/
def is_contradiction (k : Int) (nodes : List Node) : Bool :=
  decide (((nodes.length : Nat) : Int) < k)
    || decide (k ≤ ((nodes.countP (fun n => kindEqNodePy n.kindOf Node.zero)) : Int))

/-- C3: failing input for `AtLeastOp.is_contradiction`.  For
`AtLeastOp(1, (Zero,))` the claimed condition holds — `k > n` is
false but `n - #Zero = 0 < 1 = k`, and indeed `at_least(1, Zero)`
is unsatisfiable under every assignment — yet the code returns
`False`, because the Zero count compares the integer tag against the
node object and is always 0, making the property equivalent to
`k > n or k <= 0`. -/
theorem is_contradiction_bug :
    is_contradiction 1 [Node.zero] = false
    ∧ ((1 : Int) > (([Node.zero] : List Node).length : Int)
        ∨ (([Node.zero] : List Node).length : Int)
            - (([Node.zero] : List Node).countP
                (fun n => n.kindOf == NKind.kZERO) : Int) < 1)
    ∧ (∀ A : Nat → Bool, evalNode A (at_least 1 [Node.zero] true) = false) := by
  refine ⟨by decide, by decide, fun A => rfl⟩

/-! ## `Expression.restrict` (`expr.py`, lines 424-433) -/

mutual

/-- Modelled from the spec: §4.6 restriction of the missing
`exprnode.ExprNode.restrict`: literals whose variable appears in the
point (keyed by the positive literal node) are substituted using
polarity; operators are rebuilt through the smart constructors.  The
identity-keyed memoization only affects sharing, not the result. -/
def nrestrict (d : List (Node × Node)) : Node → Node
  | .zero => .zero
  | .one => .one
  | .var v =>
    match d.lookup (Node.var v) with
    | some c => c
    | none => .var v
  | .comp v =>
    match d.lookup (Node.var v) with
    | some c => not_ c
    | none => .comp v
  | .not x => not_ (nrestrict d x)
  | .and xs => and_ (nrestrictList d xs)
  | .or xs => or_ (nrestrictList d xs)
  | .xor xs => xor_ (nrestrictList d xs)
  | .eq xs => eq_ (nrestrictList d xs)
  | .impl p q => impl_ (nrestrict d p) (nrestrict d q)
  | .ite s d1 d0 => ite_ (nrestrict d s) (nrestrict d d1) (nrestrict d d0)

/-- Restriction mapped over an operand list. -/
def nrestrictList (d : List (Node × Node)) : List Node → List Node
  | [] => []
  | x :: xs => nrestrict d x :: nrestrictList d xs

end

/-- A value passed in a restriction point.  `Expression.box`
(`expr.py`, lines 449-459) accepts an `Expression`, the ints `0`/`1`
(other ints fall through to truthiness), or any other object via
`bool(obj)`.  The string case goes through the external parser (out
of scope per §1) and is not modelled. -/
inductive BoxVal where
  | ex (e : Node)
  | int (i : Int)
  | pybool (b : Bool)
deriving DecidableEq

/-- Translation of `Expression.box` (`expr.py`, lines 449-459),
giving the node of the boxed expression: an `Expression` boxes to
itself, ints `0`/`1` to the constants, any other int `i` to
`bool(i)`, and other objects to their truthiness. -/
def box : BoxVal → Node
  | .ex e => e
  | .int i => if i = 0 then .zero else if i = 1 then .one else .one
  | .pybool b => bif b then .one else .zero

/-- Translation of the loop of `Expression.restrict` (`expr.py`,
lines 425-432): iterate the point entries in order; a key that is not
a `Variable` raises `TypeError("expected point keys to be
variables")`; a value whose boxed expression is not a `Constant`
raises `TypeError("expected point values to be constants")`;
otherwise record `d[key.node] = val.node`.  Python dict keys are
unique, so entry order beyond the first faulty entry is
irrelevant. -/
def restrictBuild : List (Node × BoxVal) → Except String (List (Node × Node))
  | [] => .ok []
  | (key, val) :: rest =>
    if key.kindOf ≠ NKind.kVAR then
      .error "expected point keys to be variables"
    else if (box val).kindOf ∉ constKinds then
      .error "expected point values to be constants"
    else
      match restrictBuild rest with
      | .error msg => .error msg
      | .ok d => .ok ((key, box val) :: d)

/-- Translation of `Expression.restrict` (`expr.py`, lines 424-433):
build the substitution dict, then apply the node-level
restriction. -/
def restrict (e : Node) (point : List (Node × BoxVal)) : Except String Node :=
  match restrictBuild point with
  | .error msg => .error msg
  | .ok d => .ok (nrestrict d e)

/-- The successfully-built substitution dict: every entry boxed. -/
def pointNodeMap (point : List (Node × BoxVal)) : List (Node × Node) :=
  point.map (fun kv => (kv.1, box kv.2))

theorem restrictBuild_ok (point : List (Node × BoxVal))
    (h : ∀ kv ∈ point, kv.1.kindOf = NKind.kVAR ∧ (box kv.2).kindOf ∈ constKinds) :
    restrictBuild point = .ok (pointNodeMap point) := by
  induction point with
  | nil => rfl
  | cons kv rest ih =>
    obtain ⟨hk, hv⟩ := h kv (List.mem_cons_self kv rest)
    obtain ⟨key, val⟩ := kv
    rw [restrictBuild]
    rw [if_neg (by simp_all), if_neg (by simp_all)]
    rw [ih (fun p hp => h p (List.mem_cons_of_mem _ hp))]
    rfl

theorem restrictBuild_error (point : List (Node × BoxVal))
    (h : ∃ kv ∈ point, kv.1.kindOf ≠ NKind.kVAR ∨ (box kv.2).kindOf ∉ constKinds) :
    ∃ msg, restrictBuild point = .error msg := by
  induction point with
  | nil => obtain ⟨kv, hm, -⟩ := h; cases hm
  | cons kv rest ih =>
    obtain ⟨key, val⟩ := kv
    rw [restrictBuild]
    by_cases hk : key.kindOf ≠ NKind.kVAR
    · exact ⟨_, by rw [if_pos hk]⟩
    · rw [if_neg hk]
      by_cases hv : (box val).kindOf ∉ constKinds
      · exact ⟨_, by rw [if_pos hv]⟩
      · rw [if_neg hv]
        have hrest : ∃ kv ∈ rest,
            kv.1.kindOf ≠ NKind.kVAR ∨ (box kv.2).kindOf ∉ constKinds := by
          obtain ⟨p, hp, hbad⟩ := h
          rcases List.mem_cons.mp hp with heq | hmem
          · exfalso
            subst heq
            rcases hbad with hbad | hbad
            · exact hk hbad
            · exact hv hbad
          · exact ⟨p, hmem, hbad⟩
        obtain ⟨msg, hmsg⟩ := ih hrest
        exact ⟨msg, by rw [hmsg]⟩

/-- C8: `Expression.restrict(point)` raises a `TypeError` exactly when
some key of the point is not a `Variable` or some value does not box
to a constant; otherwise it returns the restricted expression built
from the collected substitution dict. -/
theorem restrict_typeerror_iff (e : Node) (point : List (Node × BoxVal)) :
    ((∃ msg, restrict e point = .error msg)
      ↔ ∃ kv ∈ point, kv.1.kindOf ≠ NKind.kVAR ∨ (box kv.2).kindOf ∉ constKinds)
    ∧ ((∀ kv ∈ point, kv.1.kindOf = NKind.kVAR ∧ (box kv.2).kindOf ∈ constKinds)
      → restrict e point = .ok (nrestrict (pointNodeMap point) e)) := by
  constructor
  · constructor
    · intro ⟨msg, hmsg⟩
      by_contra hcon
      push_neg at hcon
      rw [restrict, restrictBuild_ok point hcon] at hmsg
      cases hmsg
    · intro h
      obtain ⟨msg, hmsg⟩ := restrictBuild_error point h
      exact ⟨msg, by rw [restrict, hmsg]⟩
  · intro h
    rw [restrict, restrictBuild_ok point h]

/-- Witness for `restrict_typeerror_iff`: a good point returns the
restricted expression, and a point keyed by a non-variable errors. -/
theorem restrict_typeerror_iff_witness :
    restrict (Node.var 1) [(Node.var 1, BoxVal.int 1)]
        = .ok (nrestrict [(Node.var 1, Node.one)] (Node.var 1))
    ∧ (∃ msg, restrict (Node.var 1) [(Node.one, BoxVal.int 1)] = .error msg) := by
  constructor
  · exact (restrict_typeerror_iff (Node.var 1)
      [(Node.var 1, BoxVal.int 1)]).2 (by decide)
  · exact (restrict_typeerror_iff (Node.var 1)
      [(Node.one, BoxVal.int 1)]).1.mpr ⟨(Node.one, BoxVal.int 1), by decide⟩

/-! ## Spec-modelled transforms `simplify` and `to_cnf` of the
missing `exprnode` extension (used by `expand`) -/

mutual

/-- Modelled from the spec: §4.3 `simplify(x)` of the missing
`exprnode` extension: reapply the §4.2 reductions bottom-up (the
builders are the reductions; constants and literals are fixed
points). -/
def simplifyN : Node → Node
  | .zero => .zero
  | .one => .one
  | .var v => .var v
  | .comp v => .comp v
  | .not x => not_ (simplifyN x)
  | .and xs => and_ (simplifyNList xs)
  | .or xs => or_ (simplifyNList xs)
  | .xor xs => xor_ (simplifyNList xs)
  | .eq xs => eq_ (simplifyNList xs)
  | .impl p q => impl_ (simplifyN p) (simplifyN q)
  | .ite s d1 d0 => ite_ (simplifyN s) (simplifyN d1) (simplifyN d0)

/-- Bottom-up simplification of an operand list. -/
def simplifyNList : List Node → List Node
  | [] => []
  | x :: xs => simplifyN x :: simplifyNList xs

end

/-- Modelled from the spec: binary-Xor elimination used while forming
NNF (`a ⊕ b = (a ∧ ¬b) ∨ (¬a ∧ b)`), folded left over the operand
list (§4.3 `to_nnf` eliminates Xor in terms of And/Or/Not; the empty
Xor is Zero per §4.1). -/
def xorTree (xs : List Node) : Node :=
  xs.foldl
    (fun acc x => .or [.and [acc, .not x], .and [.not acc, x]])
    .zero

mutual

/-- Modelled from the spec: the elimination half of §4.3 `to_nnf` for
the missing `exprnode` extension: rewrite `Impl`, `Ite`, `Eq` and
`Xor` in terms of And/Or/Not (`Ite(s,d1,d0) → (s∧d1)∨(¬s∧d0)`;
`Eq(xs) → Or(And(xs), And(¬xs))` per §4.2). -/
def elimN : Node → Node
  | .zero => .zero
  | .one => .one
  | .var v => .var v
  | .comp v => .comp v
  | .not x => .not (elimN x)
  | .and xs => .and (elimNList xs)
  | .or xs => .or (elimNList xs)
  | .xor xs => xorTree (elimNList xs)
  | .eq xs => .or [.and (elimNList xs), .and ((elimNList xs).map Node.not)]
  | .impl p q => .or [.not (elimN p), elimN q]
  | .ite s d1 d0 =>
    .or [.and [elimN s, elimN d1], .and [.not (elimN s), elimN d0]]

/-- Elimination mapped over an operand list. -/
def elimNList : List Node → List Node
  | [] => []
  | x :: xs => elimN x :: elimNList xs

end

mutual

/-- Modelled from the spec: the negation-pushing half of §4.3
`to_nnf` (§4.3 `pushdown_not`): carry a polarity flag down to the
literals; on the And/Or/Not/literal fragment produced by `elimN` the
other kinds never occur and are passed through (negated by an outer
`Not` when the polarity is negative). -/
def pushNot : Bool → Node → Node
  | true, .zero => .zero
  | false, .zero => .one
  | true, .one => .one
  | false, .one => .zero
  | true, .var v => .var v
  | false, .var v => .comp v
  | true, .comp v => .comp v
  | false, .comp v => .var v
  | pol, .not x => pushNot (!pol) x
  | true, .and xs => .and (pushNotList true xs)
  | false, .and xs => .or (pushNotList false xs)
  | true, .or xs => .or (pushNotList true xs)
  | false, .or xs => .and (pushNotList false xs)
  | true, n => n
  | false, n => .not n

/-- Negation pushing mapped over an operand list. -/
def pushNotList : Bool → List Node → List Node
  | _, [] => []
  | pol, x :: xs => pushNot pol x :: pushNotList pol xs

end

mutual

/-- Modelled from the spec: the distribution half of §4.3 `to_cnf`
for the missing `exprnode` extension, on NNF input: collect the
conjunction of disjunctions as a list of clauses (an And concatenates
its children's clauses, an Or distributes by cross product). -/
def cnfClauses : Node → List (List Node)
  | .zero => [[]]
  | .one => []
  | .var v => [[.var v]]
  | .comp v => [[.comp v]]
  | .and xs => cnfClausesList xs
  | .or xs => cnfCross xs
  | n => [[n]]

/-- Clause lists of an And's children, concatenated. -/
def cnfClausesList : List Node → List (List Node)
  | [] => []
  | x :: xs => cnfClauses x ++ cnfClausesList xs

/-- Distribution of an Or over its children's clause lists. -/
def cnfCross : List Node → List (List Node)
  | [] => [[]]
  | x :: xs => (cnfClauses x).flatMap (fun c => (cnfCross xs).map (fun d => c ++ d))

end

/-- Modelled from the spec: §4.3 `to_cnf(x)` of the missing `exprnode`
extension: convert to NNF (eliminate Impl/Ite/Eq/Xor, push
negations), then distribute into a flat And-of-Ors through the
builders. -/
def toCnfN (n : Node) : Node :=
  and_ ((cnfClauses (pushNot true (elimN n))).map or_)

/-! ## `expand` (`expression/node/cardinality.py`, lines 112-125) -/

/-- Translation of `get_identifier` (`expression/node/utils.py`,
lines 93-96): the absolute value of a literal node's data slot (only
called on literals; the catch-all models the violated `assert`). -/
def get_identifier : Node → Nat
  | .var v => v
  | .comp v => v
  | _ => 0

/-- First-occurrence order of identifiers, as a Python
`collections.Counter` (an insertion-ordered dict) records them. -/
def firstOccurrences (ids : List Nat) : List Nat :=
  ids.foldl (fun acc v => if v ∈ acc then acc else acc ++ [v]) []

/-- Translation of `iter_duplicate_input_variables`
(`expression/node/cardinality.py`, lines 40-47): count the literal
operands by identifier and yield `lit(idx)` (the positive literal)
for every identifier occurring more than once, in first-seen
order. -/
def iter_duplicate_input_variables (nodes : List Node) : List Node :=
  let ids := nodes.filterMap
    (fun n => if n.kindOf ∈ litKinds then some (get_identifier n) else none)
  ((firstOccurrences ids).filter (fun v => ids.count v > 1)).map
    (fun v => lit (v : Int))

/-- Translation of `num2point` (`point.py`, lines 21-56):
`{v: bit_on(num, i)}` over the enumerated variables, with `num`
reduced mod `2^N`. -/
def num2point (num : Nat) (vs : List Node) : List (Node × Bool) :=
  vs.enum.map (fun p => (p.2, bit_on (num % 2 ^ vs.length) p.1))

/-- Translation of `iter_points` (`point.py`, lines 59-65). -/
def iter_points (vs : List Node) : List (List (Node × Bool)) :=
  (List.range (2 ^ vs.length)).map (fun num => num2point num vs)

/-- Translation of `expand` (`expression/node/cardinality.py`,
lines 112-125), specialised to the builder `at_least` (the
instantiation used by `AtLeastOp.to_cnf` / `to_dnf` and by the
claim).  Note two features of the source carried over faithfully:
the guard of each disjunct is `and_(*point.keys(), cofactor)` — the
raw positive literals, not the cube `point_to_term(point)` describing
the assignment — and both the `as_cnf` and the `not as_cnf` return
paths call `.to_cnf()` (lines 122-125). -/
def expand (k : Int) (nodes : List Node) (as_cnf : Bool) : Node :=
  let decidable := iter_duplicate_input_variables nodes
  let terms := (iter_points decidable).map (fun point =>
    let mapping := point.map (fun vp => (vp.1, bif vp.2 then Node.one else Node.zero))
    let rc := remove_constants (nodes.map (fun op => nrestrict mapping op))
    let cofactor := at_least (k + rc.1) rc.2 as_cnf
    and_ (point.map (fun vp => vp.1) ++ [cofactor]))
  if as_cnf then toCnfN (simplifyN (or_ terms))
  else toCnfN (simplifyN (or_ terms))

/-- C4: failing input for `expand`.  For `expand(1, at_least, ¬x, ¬x)`
(operands sharing variable `x`), the result evaluates to true under
the assignment `x := true`, although zero of the operands are true
there (fewer than `k = 1`): the guard of each disjunct conjoins the
raw positive literals `point.keys()` instead of the cube describing
the assignment, so the cofactor at `x = 0` is guarded by `x` instead
of `¬x`.  Additionally, the `as_cnf = False` path returns the same
expression as the `as_cnf = True` path, because line 125 also calls
`.to_cnf()`. -/
theorem expand_guard_bug :
    evalNode (fun _ => true) (expand 1 [Node.comp 1, Node.comp 1] true) = true
    ∧ (([Node.comp 1, Node.comp 1] : List Node).countP
        (evalNode (fun _ => true)) : Int) < 1
    ∧ expand 1 [Node.comp 1, Node.comp 1] false
        = expand 1 [Node.comp 1, Node.comp 1] true := by
  refine ⟨by decide, by decide, rfl⟩

/-! ## Tseitin encoder (`expression/node/transform.py`, lines 54-80) -/

mutual

/-- Combined size of an operand list (termination measure for the
DFS). -/
def listSize : List Node → Nat
  | [] => 0
  | x :: xs => 1 + nodeSize x + listSize xs

/-- Size of a node (termination measure for the DFS). -/
def nodeSize : Node → Nat
  | .zero => 1
  | .one => 1
  | .var _ => 1
  | .comp _ => 1
  | .not x => 2 + nodeSize x
  | .and xs => 1 + listSize xs
  | .or xs => 1 + listSize xs
  | .xor xs => 1 + listSize xs
  | .eq xs => 1 + listSize xs
  | .impl p q => 3 + nodeSize p + nodeSize q
  | .ite s d1 d0 => 4 + nodeSize s + nodeSize d1 + nodeSize d0

end

theorem listSize_operands_lt (n : Node) : listSize n.operands < nodeSize n := by
  cases n <;> simp [nodeSize, Node.operands, listSize] <;> omega

/-- Translation of `NODE_OP_TO_BUILDER[curr.kind()]` applied to the
resolved operand list (`expression/node/utils.py`, lines 78-86):
dispatch the smart builder on the kind tag.  The arity of the list
always matches the kind (it is the operand tuple of a node of that
kind); the fall-through returns `Zero` and is unreachable. -/
def buildOp : NKind → List Node → Node
  | .kNOT, [x] => not_ x
  | .kAND, ls => and_ ls
  | .kOR, ls => or_ ls
  | .kXOR, ls => xor_ ls
  | .kEQ, ls => eq_ ls
  | .kIMPL, [p, q] => impl_ p q
  | .kITE, [s, d1, d0] => ite_ s d1 d0
  | _, _ => Node.zero

/-- The mutable state of the encoder's DFS: the counter of the
fresh-variable factory (`get_new_var` yields `var(fresh)` and
increments; modelled after `Universe.get_next_var`, which hands out
consecutive fresh indices) and the emission-ordered list of
`(source subnode, aux variable, constraint)` triples.  The source
keeps `lit_for` (a dict keyed by node identifier) and `constraints`
(the pair list) separately, but always extends them together; the
triple list fuses them, with `lit_for[n]` recovered by `resolve` —
node identifiers coincide with structural identity by the §3
hash-consing invariant. -/
structure TState where
  fresh : Nat
  trips : List (Node × Node × Node)
deriving DecidableEq

/-- Translation of `lit_for.get(c.id(), c)`
(`expression/node/transform.py`, line 74). -/
def resolve (trips : List (Node × Node × Node)) (c : Node) : Node :=
  match trips.find? (fun t => t.1 == c) with
  | some t => t.2.1
  | none => c

mutual

/-- Translation of the explicit-stack postorder DFS of `tseitin`
(`expression/node/transform.py`, lines 62-79), as structural
recursion: popping `(curr, False)` pushes `(curr, True)` under the
unprocessed operator children, so the children are fully processed —
rightmost first, matching the LIFO order of `stack.extend` — before
`curr`'s constraint is emitted; a node already in `lit_for` is a
net no-op (its children are all processed, and the `visited` branch
skips re-emission), modelled by the entry check. -/
def tvisit (curr : Node) (st : TState) : TState :=
  if (st.trips.find? (fun t => t.1 == curr)).isSome then st
  else
    let st1 := tvisitChildren curr.operands st
    if (st1.trips.find? (fun t => t.1 == curr)).isSome then st1
    else
      { fresh := st1.fresh + 1
        trips := st1.trips
          ++ [(curr, Node.var st1.fresh,
              buildOp curr.kindOf (curr.operands.map (resolve st1.trips)))] }
termination_by nodeSize curr
decreasing_by exact listSize_operands_lt curr

/-- Process an operand list, rightmost child first (stack order);
only operator children are visited (`operand.kind() in NODE_OPS`). -/
def tvisitChildren (cs : List Node) (st : TState) : TState :=
  match cs with
  | [] => st
  | c :: rest =>
    let st' := tvisitChildren rest st
    if c.kindOf ∈ opKinds then tvisit c st' else st'
termination_by listSize cs
decreasing_by
  all_goals simp [listSize]
  all_goals omega

end

/-- The DFS state after encoding `root` with fresh variables from
`base`. -/
def tseitinState (root : Node) (base : Nat) : TState :=
  tvisit root ⟨base, []⟩

/-- Translation of `tseitin` (`expression/node/transform.py`,
lines 54-80): an atomic input returns `(input, [])`; otherwise run
the DFS and return `lit_for[root]` (recovered by `resolve`; the
entry always exists) with the `(aux_var, constraint)` pairs. -/
def tseitin (node : Node) (base : Nat) : Node × List (Node × Node) :=
  if node.kindOf ∈ atomKinds then (node, [])
  else
    let st := tseitinState node base
    (resolve st.trips node, st.trips.map (fun t => (t.2.1, t.2.2)))

mutual

/-- The set of distinct operator (non-atomic) subnodes of a node,
itself included when it is an operator. -/
def opSub : Node → Finset Node
  | .zero => ∅
  | .one => ∅
  | .var _ => ∅
  | .comp _ => ∅
  | .not x => insert (.not x) (opSub x)
  | .and xs => insert (.and xs) (opSubList xs)
  | .or xs => insert (.or xs) (opSubList xs)
  | .xor xs => insert (.xor xs) (opSubList xs)
  | .eq xs => insert (.eq xs) (opSubList xs)
  | .impl p q => insert (.impl p q) (opSub p ∪ opSub q)
  | .ite s d1 d0 => insert (.ite s d1 d0) (opSub s ∪ opSub d1 ∪ opSub d0)

/-- Union of the operator subnodes over a list. -/
def opSubList : List Node → Finset Node
  | [] => ∅
  | x :: xs => opSub x ∪ opSubList xs

end

mutual

/-- The variable indices occurring in a node (its support). -/
def varsIn : Node → List Nat
  | .zero => []
  | .one => []
  | .var v => [v]
  | .comp v => [v]
  | .not x => varsIn x
  | .and xs => varsInList xs
  | .or xs => varsInList xs
  | .xor xs => varsInList xs
  | .eq xs => varsInList xs
  | .impl p q => varsIn p ++ varsIn q
  | .ite s d1 d0 => varsIn s ++ varsIn d1 ++ varsIn d0

/-- The variable indices occurring in a list of nodes. -/
def varsInList : List Node → List Nat
  | [] => []
  | x :: xs => varsIn x ++ varsInList xs

end

/-- The source subnodes recorded in a triple list (the key set of
`lit_for`, in emission order). -/
def srcs (trips : List (Node × Node × Node)) : List Node :=
  trips.map (fun t => t.1)

theorem opSub_op (n : Node) (h : n.kindOf ∈ opKinds) :
    opSub n = insert n (opSubList n.operands) := by
  cases n <;> simp_all [Node.kindOf, opKinds, opSub, opSubList, Node.operands,
    Finset.union_assoc]

theorem opSub_atom (n : Node) (h : n.kindOf ∉ opKinds) : opSub n = ∅ := by
  cases n <;> simp_all [Node.kindOf, opKinds, opSub]

theorem self_mem_opSub (n : Node) (h : n.kindOf ∈ opKinds) : n ∈ opSub n := by
  cases n <;> simp_all [Node.kindOf, opKinds, opSub]

theorem opSub_subset_opSubList (c : Node) (cs : List Node) (h : c ∈ cs) :
    opSub c ⊆ opSubList cs := by
  induction cs with
  | nil => cases h
  | cons x xs ih =>
    rcases List.mem_cons.mp h with rfl | hm
    · rw [opSubList]; exact Finset.subset_union_left
    · rw [opSubList]; exact (ih hm).trans Finset.subset_union_right

theorem find_isSome_iff_mem_srcs (trips : List (Node × Node × Node)) (c : Node) :
    (trips.find? (fun t => t.1 == c)).isSome = true ↔ c ∈ srcs trips := by
  rw [List.find?_isSome]
  constructor
  · rintro ⟨t, ht, hbt⟩
    have : t.1 = c := by simpa using hbt
    exact this ▸ List.mem_map_of_mem _ ht
  · intro h
    obtain ⟨t, ht, hteq⟩ := List.mem_map.mp h
    exact ⟨t, ht, by simp [hteq]⟩

/-- The invariant the DFS maintains: the fresh counter counts emitted
constraints from `base`; sources are distinct operator nodes; the
`i`-th aux variable is `var (base + i)`; the `i`-th constraint was
built by the kind's builder over the operands resolved against the
prefix emitted before it; every operator child of an emitted source
was emitted earlier; and the emitted sources are closed under
operator subnodes. -/
structure TInv (base : Nat) (st : TState) : Prop where
  fresh_eq : st.fresh = base + st.trips.length
  nodup : (srcs st.trips).Nodup
  ops : ∀ t ∈ st.trips, t.1.kindOf ∈ opKinds
  aux : ∀ i (hi : i < st.trips.length), (st.trips.get ⟨i, hi⟩).2.1 = Node.var (base + i)
  connects : ∀ i (hi : i < st.trips.length),
    (st.trips.get ⟨i, hi⟩).2.2
      = buildOp (st.trips.get ⟨i, hi⟩).1.kindOf
          ((st.trips.get ⟨i, hi⟩).1.operands.map (resolve (st.trips.take i)))
  children : ∀ i (hi : i < st.trips.length),
    ∀ c ∈ (st.trips.get ⟨i, hi⟩).1.operands, c.kindOf ∈ opKinds →
      c ∈ srcs (st.trips.take i)
  closedSub : ∀ t ∈ st.trips, opSub t.1 ⊆ (srcs st.trips).toFinset

theorem tinv_empty (base : Nat) : TInv base ⟨base, []⟩ where
  fresh_eq := rfl
  nodup := List.nodup_nil
  ops := by intro t ht; cases ht
  aux := by intro i hi; cases hi
  connects := by intro i hi; cases hi
  children := by intro i hi; cases hi
  closedSub := by intro t ht; cases ht

theorem take_append_le {α : Type} (l₁ l₂ : List α) (n : Nat) (h : n ≤ l₁.length) :
    (l₁ ++ l₂).take n = l₁.take n := by
  have h1 : (l₁ ++ l₂).take n = ((l₁ ++ l₂).take l₁.length).take n := by
    rw [List.take_take, Nat.min_eq_left h]
  rw [h1, List.take_left]

theorem tvisit_eq (curr : Node) (st : TState) : tvisit curr st =
    if (st.trips.find? (fun t => t.1 == curr)).isSome then st
    else if ((tvisitChildren curr.operands st).trips.find?
        (fun t => t.1 == curr)).isSome then
      tvisitChildren curr.operands st
    else
      ⟨(tvisitChildren curr.operands st).fresh + 1,
        (tvisitChildren curr.operands st).trips
          ++ [(curr, Node.var (tvisitChildren curr.operands st).fresh,
              buildOp curr.kindOf
                (curr.operands.map
                  (resolve (tvisitChildren curr.operands st).trips)))]⟩ := by
  rw [tvisit]

theorem tvisitChildren_nil (st : TState) : tvisitChildren [] st = st := by
  rw [tvisitChildren]

theorem tvisitChildren_cons (c : Node) (rest : List Node) (st : TState) :
    tvisitChildren (c :: rest) st =
      if c.kindOf ∈ opKinds then tvisit c (tvisitChildren rest st)
      else tvisitChildren rest st := by
  rw [tvisitChildren]

mutual

theorem tvisit_spec (base : Nat) : ∀ (curr : Node) (st : TState),
    curr.kindOf ∈ opKinds → TInv base st →
    TInv base (tvisit curr st)
    ∧ (∃ Δ, (tvisit curr st).trips = st.trips ++ Δ)
    ∧ (srcs (tvisit curr st).trips).toFinset
        = (srcs st.trips).toFinset ∪ opSub curr
  | curr, st => fun hop hinv => by
    rw [tvisit_eq]
    by_cases hmem : (st.trips.find? (fun t => t.1 == curr)).isSome = true
    · rw [if_pos hmem]
      refine ⟨hinv, ⟨[], by simp⟩, ?_⟩
      have hcur : curr ∈ srcs st.trips := (find_isSome_iff_mem_srcs _ _).mp hmem
      obtain ⟨t, ht, hteq⟩ := List.mem_map.mp hcur
      have hsub : opSub curr ⊆ (srcs st.trips).toFinset :=
        hteq ▸ hinv.closedSub t ht
      rw [Finset.union_eq_left.mpr hsub]
    · rw [if_neg hmem]
      obtain ⟨hinv1, ⟨Δ1, hΔ1⟩, hset1⟩ :=
        tvisitChildren_spec base curr.operands st hinv
      have hopSub : opSub curr = insert curr (opSubList curr.operands) :=
        opSub_op curr hop
      by_cases hmem1 : ((tvisitChildren curr.operands st).trips.find?
          (fun t => t.1 == curr)).isSome = true
      · rw [if_pos hmem1]
        have hcur : curr ∈ srcs (tvisitChildren curr.operands st).trips :=
          (find_isSome_iff_mem_srcs _ _).mp hmem1
        refine ⟨hinv1, ⟨Δ1, hΔ1⟩, ?_⟩
        rw [hset1, hopSub, Finset.union_insert,
          Finset.insert_eq_self.mpr]
        rw [← hset1]
        exact List.mem_toFinset.mpr hcur
      · rw [if_neg hmem1]
        set st1 := tvisitChildren curr.operands st with hst1def
        have hcurnot : curr ∉ srcs st1.trips := fun hc =>
          hmem1 ((find_isSome_iff_mem_srcs _ _).mpr hc)
        set entry : Node × Node × Node :=
          (curr, Node.var st1.fresh,
            buildOp curr.kindOf (curr.operands.map (resolve st1.trips)))
          with hentry
        have hsrcs2 : srcs (st1.trips ++ [entry]) = srcs st1.trips ++ [curr] := by
          rw [srcs, List.map_append]; rfl
        have hchild_in : ∀ c ∈ curr.operands, c.kindOf ∈ opKinds →
            c ∈ srcs st1.trips := by
          intro c hc hck
          have : c ∈ (srcs st1.trips).toFinset := by
            rw [hset1]
            exact Finset.mem_union_right _
              (opSub_subset_opSubList c curr.operands hc (self_mem_opSub c hck))
          exact List.mem_toFinset.mp this
        refine ⟨?_, ⟨Δ1 ++ [entry], by rw [hΔ1]; simp⟩, ?_⟩
        · refine ⟨?_, ?_, ?_, ?_, ?_, ?_, ?_⟩
          · simp only [List.length_append, List.length_cons, List.length_nil]
            rw [hinv1.fresh_eq]
            omega
          · rw [hsrcs2]
            refine hinv1.nodup.append (List.nodup_singleton curr) ?_
            intro x hx hxc
            rw [List.mem_singleton] at hxc
            exact hcurnot (hxc ▸ hx)
          · intro t ht
            rcases List.mem_append.mp ht with ht | ht
            · exact hinv1.ops t ht
            · rw [List.mem_singleton] at ht
              subst ht
              exact hop
          · intro i hi
            simp only [List.length_append, List.length_cons, List.length_nil] at hi
            by_cases hlt : i < st1.trips.length
            · rw [List.get_eq_getElem, List.getElem_append_left hlt]
              exact hinv1.aux i hlt
            · have hieq : i = st1.trips.length := by omega
              subst hieq
              rw [List.get_eq_getElem, List.getElem_append_right (le_refl _)]
              simp only [Nat.sub_self, List.getElem_cons_zero]
              rw [hinv1.fresh_eq]
          · intro i hi
            simp only [List.length_append, List.length_cons, List.length_nil] at hi
            by_cases hlt : i < st1.trips.length
            · rw [List.get_eq_getElem, List.getElem_append_left hlt,
                take_append_le _ _ i (by omega)]
              exact hinv1.connects i hlt
            · have hieq : i = st1.trips.length := by omega
              subst hieq
              rw [List.get_eq_getElem, List.getElem_append_right (le_refl _),
                List.take_left]
              simp only [Nat.sub_self, List.getElem_cons_zero]
          · intro i hi
            simp only [List.length_append, List.length_cons, List.length_nil] at hi
            by_cases hlt : i < st1.trips.length
            · rw [List.get_eq_getElem, List.getElem_append_left hlt,
                take_append_le _ _ i (by omega)]
              exact hinv1.children i hlt
            · have hieq : i = st1.trips.length := by omega
              subst hieq
              rw [List.get_eq_getElem, List.getElem_append_right (le_refl _),
                List.take_left]
              simp only [Nat.sub_self, List.getElem_cons_zero]
              exact hchild_in
          · intro t ht
            rcases List.mem_append.mp ht with ht | ht
            · refine (hinv1.closedSub t ht).trans ?_
              rw [hsrcs2]
              intro x hx
              rw [List.mem_toFinset] at hx ⊢
              exact List.mem_append_left _ hx
            · rw [List.mem_singleton] at ht
              subst ht
              simp only [hentry]
              rw [hopSub, hsrcs2]
              intro x hx
              rcases Finset.mem_insert.mp hx with rfl | hx
              · rw [List.mem_toFinset]
                exact List.mem_append_right _ (List.mem_singleton_self _)
              · have : x ∈ (srcs st1.trips).toFinset := by
                  rw [hset1]
                  exact Finset.mem_union_right _ hx
                rw [List.mem_toFinset] at this ⊢
                exact List.mem_append_left _ this
        · rw [hsrcs2, hopSub]
          rw [List.toFinset_append, hset1]
          simp only [List.toFinset_cons, List.toFinset_nil]
          rw [Finset.union_insert]
          simp
  termination_by curr => nodeSize curr
  decreasing_by exact listSize_operands_lt curr

theorem tvisitChildren_spec (base : Nat) : ∀ (cs : List Node) (st : TState),
    TInv base st →
    TInv base (tvisitChildren cs st)
    ∧ (∃ Δ, (tvisitChildren cs st).trips = st.trips ++ Δ)
    ∧ (srcs (tvisitChildren cs st).trips).toFinset
        = (srcs st.trips).toFinset ∪ opSubList cs
  | [], st => fun hinv => by
    rw [tvisitChildren_nil]
    exact ⟨hinv, ⟨[], by simp⟩, by rw [opSubList]; simp⟩
  | c :: rest, st => fun hinv => by
    rw [tvisitChildren_cons]
    obtain ⟨hinv1, ⟨Δ1, hΔ1⟩, hset1⟩ := tvisitChildren_spec base rest st hinv
    by_cases hck : c.kindOf ∈ opKinds
    · rw [if_pos hck]
      obtain ⟨hinv2, ⟨Δ2, hΔ2⟩, hset2⟩ :=
        tvisit_spec base c (tvisitChildren rest st) hck hinv1
      refine ⟨hinv2, ⟨Δ1 ++ Δ2, by rw [hΔ2, hΔ1]; simp⟩, ?_⟩
      rw [hset2, hset1, opSubList]
      rw [Finset.union_assoc, Finset.union_comm (opSubList rest) (opSub c)]
    · rw [if_neg hck]
      refine ⟨hinv1, ⟨Δ1, hΔ1⟩, ?_⟩
      rw [hset1, opSubList, opSub_atom c hck]
      simp
  termination_by cs => listSize cs
  decreasing_by
    all_goals simp [listSize]
    all_goals omega

end

theorem kind_op_not_atom (n : Node) (h : n.kindOf ∈ opKinds) :
    n.kindOf ∉ atomKinds := by
  cases n <;> simp_all [Node.kindOf, opKinds, atomKinds]

theorem kind_total (n : Node) : n.kindOf ∈ opKinds ∨ n.kindOf ∈ atomKinds := by
  cases n <;> simp [Node.kindOf, opKinds, atomKinds]

theorem resolve_atom (trips : List (Node × Node × Node))
    (hops : ∀ t ∈ trips, t.1.kindOf ∈ opKinds)
    (c : Node) (hc : c.kindOf ∈ atomKinds) : resolve trips c = c := by
  rw [resolve]
  cases hf : trips.find? (fun t => t.1 == c) with
  | none => rfl
  | some t =>
    exfalso
    have ht : t ∈ trips := List.mem_of_find?_eq_some hf
    have hbeq := List.find?_some hf
    have hteq : t.1 = c := by simpa using hbeq
    exact kind_op_not_atom c (hteq ▸ hops t ht) hc

theorem resolve_mem_srcs (trips : List (Node × Node × Node)) (c : Node)
    (h : c ∈ srcs trips) :
    ∃ t ∈ trips, t.1 = c ∧ resolve trips c = t.2.1 := by
  have hsome : (trips.find? (fun t => t.1 == c)).isSome = true :=
    (find_isSome_iff_mem_srcs _ _).mpr h
  cases hf : trips.find? (fun t => t.1 == c) with
  | none => rw [hf] at hsome; cases hsome
  | some t =>
    refine ⟨t, List.mem_of_find?_eq_some hf, ?_, ?_⟩
    · simpa using List.find?_some hf
    · rw [resolve, hf]

/-- C6: on an operator root, the DFS emits exactly one
`(aux, constraint)` pair per distinct operator subnode of the DAG
(sources are keyed by identifier, hence distinct, and cover exactly
`opSub root`); the `i`-th aux variable is the fresh variable
`var (base+i)`; the `i`-th constraint is the node's builder applied
to its operands resolved against the pairs emitted before it, every
operator child having been emitted earlier; atomic children resolve
to themselves; and `tseitin` returns exactly these pairs. -/
theorem tseitin_shared_subnodes (root : Node) (base : Nat)
    (hop : root.kindOf ∈ opKinds) :
    ((srcs (tseitinState root base).trips).Nodup
      ∧ (srcs (tseitinState root base).trips).toFinset = opSub root
      ∧ (tseitin root base).2.length = (opSub root).card)
    ∧ (∀ i (hi : i < (tseitinState root base).trips.length),
        ((tseitinState root base).trips.get ⟨i, hi⟩).2.1 = Node.var (base + i))
    ∧ (∀ i (hi : i < (tseitinState root base).trips.length),
        ((tseitinState root base).trips.get ⟨i, hi⟩).2.2
          = buildOp ((tseitinState root base).trips.get ⟨i, hi⟩).1.kindOf
              (((tseitinState root base).trips.get ⟨i, hi⟩).1.operands.map
                (resolve ((tseitinState root base).trips.take i)))
        ∧ ∀ c ∈ ((tseitinState root base).trips.get ⟨i, hi⟩).1.operands,
            c.kindOf ∈ opKinds →
              c ∈ srcs ((tseitinState root base).trips.take i))
    ∧ (∀ c : Node, c.kindOf ∈ atomKinds →
        resolve (tseitinState root base).trips c = c)
    ∧ (tseitin root base).2
        = (tseitinState root base).trips.map (fun t => (t.2.1, t.2.2)) := by
  obtain ⟨hinv0, -, hset⟩ :=
    tvisit_spec base root ⟨base, []⟩ hop (tinv_empty base)
  have hinv : TInv base (tseitinState root base) := hinv0
  have hset' : (srcs (tseitinState root base).trips).toFinset = opSub root := by
    rw [tseitinState, hset]
    simp [srcs]
  have hpairs : (tseitin root base).2
      = (tseitinState root base).trips.map (fun t => (t.2.1, t.2.2)) := by
    rw [tseitin, if_neg (kind_op_not_atom root hop)]
  refine ⟨⟨hinv.nodup, hset', ?_⟩, hinv.aux, fun i hi => ⟨hinv.connects i hi, hinv.children i hi⟩, fun c hc => resolve_atom _ hinv.ops c hc, hpairs⟩
  rw [hpairs, List.length_map, ← hset',
    List.toFinset_card_of_nodup hinv.nodup, srcs, List.length_map]

/-- Witness for `tseitin_shared_subnodes`: the scenario
`(a ∨ b) ∧ (c ∨ d)` produces one pair per operator subnode — three in
total. -/
theorem tseitin_shared_subnodes_witness :
    (tseitin (.and [.or [.var 1, .var 2], .or [.var 3, .var 4]]) 10).2.length
        = (opSub (.and [.or [.var 1, .var 2], .or [.var 3, .var 4]])).card
    ∧ (opSub (.and [.or [.var 1, .var 2], .or [.var 3, .var 4]])).card = 3 := by
  refine ⟨(tseitin_shared_subnodes
    (.and [.or [.var 1, .var 2], .or [.var 3, .var 4]]) 10 (by decide)).1.2.2,
    by decide⟩

mutual

theorem evalNode_congr (A B : Nat → Bool) :
    ∀ (n : Node), (∀ v ∈ varsIn n, A v = B v) → evalNode A n = evalNode B n
  | .zero, _ => rfl
  | .one, _ => rfl
  | .var v, h => h v (List.mem_singleton_self v)
  | .comp v, h => by
    show (!(A v)) = !(B v)
    rw [h v (List.mem_singleton_self v)]
  | .not x, h => by
    show (!(evalNode A x)) = !(evalNode B x)
    rw [evalNode_congr A B x h]
  | .and xs, h => by
    show (evalList A xs).all id = (evalList B xs).all id
    rw [evalList_congr A B xs h]
  | .or xs, h => by
    show (evalList A xs).any id = (evalList B xs).any id
    rw [evalList_congr A B xs h]
  | .xor xs, h => by
    show (evalList A xs).foldr Bool.xor false = (evalList B xs).foldr Bool.xor false
    rw [evalList_congr A B xs h]
  | .eq xs, h => by
    show ((evalList A xs).all id || (evalList A xs).all (fun b => !b))
        = ((evalList B xs).all id || (evalList B xs).all (fun b => !b))
    rw [evalList_congr A B xs h]
  | .impl p q, h => by
    show (!(evalNode A p) || evalNode A q) = (!(evalNode B p) || evalNode B q)
    rw [evalNode_congr A B p (fun v hv => h v (List.mem_append_left _ hv)),
      evalNode_congr A B q (fun v hv => h v (List.mem_append_right _ hv))]
  | .ite s d1 d0, h => by
    show (bif evalNode A s then evalNode A d1 else evalNode A d0)
        = (bif evalNode B s then evalNode B d1 else evalNode B d0)
    rw [evalNode_congr A B s
        (fun v hv => h v (List.mem_append_left _ (List.mem_append_left _ hv))),
      evalNode_congr A B d1
        (fun v hv => h v (List.mem_append_left _ (List.mem_append_right _ hv))),
      evalNode_congr A B d0 (fun v hv => h v (List.mem_append_right _ hv))]

theorem evalList_congr (A B : Nat → Bool) :
    ∀ (xs : List Node), (∀ v ∈ varsInList xs, A v = B v) →
      evalList A xs = evalList B xs
  | [], _ => rfl
  | x :: xs, h => by
    show evalNode A x :: evalList A xs = evalNode B x :: evalList B xs
    rw [evalNode_congr A B x (fun v hv => h v (List.mem_append_left _ hv)),
      evalList_congr A B xs (fun v hv => h v (List.mem_append_right _ hv))]

end

theorem varsInList_of_mem :
    ∀ (xs : List Node), ∀ c ∈ xs, ∀ v ∈ varsIn c, v ∈ varsInList xs := by
  intro xs
  induction xs with
  | nil => intro c hc; cases hc
  | cons x xs ih =>
    intro c hc v hv
    rcases List.mem_cons.mp hc with rfl | hm
    · exact List.mem_append_left _ hv
    · exact List.mem_append_right _ (ih c hm v hv)

theorem varsIn_operand (n : Node) :
    ∀ c ∈ n.operands, ∀ v ∈ varsIn c, v ∈ varsIn n := by
  cases n with
  | zero => intro c hc; cases hc
  | one => intro c hc; cases hc
  | var _ => intro c hc; cases hc
  | comp _ => intro c hc; cases hc
  | not x =>
    intro c hc v hv
    rw [Node.operands, List.mem_singleton] at hc
    subst hc
    exact hv
  | and xs => exact varsInList_of_mem xs
  | or xs => exact varsInList_of_mem xs
  | xor xs => exact varsInList_of_mem xs
  | eq xs => exact varsInList_of_mem xs
  | impl p q =>
    intro c hc v hv
    rw [Node.operands] at hc
    rcases List.mem_cons.mp hc with rfl | hc
    · exact List.mem_append_left _ hv
    · rw [List.mem_singleton] at hc
      subst hc
      exact List.mem_append_right _ hv
  | ite s d1 d0 =>
    intro c hc v hv
    rw [Node.operands] at hc
    rcases List.mem_cons.mp hc with rfl | hc
    · exact List.mem_append_left _ (List.mem_append_left _ hv)
    · rcases List.mem_cons.mp hc with rfl | hc
      · exact List.mem_append_left _ (List.mem_append_right _ hv)
      · rw [List.mem_singleton] at hc
        subst hc
        exact List.mem_append_right _ hv

mutual

theorem opSub_varsIn : ∀ (n : Node) (s : Node), s ∈ opSub n →
    ∀ v ∈ varsIn s, v ∈ varsIn n
  | .zero, s, hs => by rw [opSub] at hs; cases hs
  | .one, s, hs => by rw [opSub] at hs; cases hs
  | .var _, s, hs => by rw [opSub] at hs; cases hs
  | .comp _, s, hs => by rw [opSub] at hs; cases hs
  | .not x, s, hs => by
    rw [opSub] at hs
    rcases Finset.mem_insert.mp hs with rfl | hs
    · exact fun v hv => hv
    · exact opSub_varsIn x s hs
  | .and xs, s, hs => by
    rw [opSub] at hs
    rcases Finset.mem_insert.mp hs with rfl | hs
    · exact fun v hv => hv
    · exact opSubList_varsIn xs s hs
  | .or xs, s, hs => by
    rw [opSub] at hs
    rcases Finset.mem_insert.mp hs with rfl | hs
    · exact fun v hv => hv
    · exact opSubList_varsIn xs s hs
  | .xor xs, s, hs => by
    rw [opSub] at hs
    rcases Finset.mem_insert.mp hs with rfl | hs
    · exact fun v hv => hv
    · exact opSubList_varsIn xs s hs
  | .eq xs, s, hs => by
    rw [opSub] at hs
    rcases Finset.mem_insert.mp hs with rfl | hs
    · exact fun v hv => hv
    · exact opSubList_varsIn xs s hs
  | .impl p q, s, hs => by
    rw [opSub] at hs
    rcases Finset.mem_insert.mp hs with rfl | hs
    · exact fun v hv => hv
    · rcases Finset.mem_union.mp hs with hs | hs
      · exact fun v hv => List.mem_append_left _ (opSub_varsIn p s hs v hv)
      · exact fun v hv => List.mem_append_right _ (opSub_varsIn q s hs v hv)
  | .ite c d1 d0, s, hs => by
    rw [opSub] at hs
    rcases Finset.mem_insert.mp hs with rfl | hs
    · exact fun v hv => hv
    · rcases Finset.mem_union.mp hs with hs | hs
      · rcases Finset.mem_union.mp hs with hs | hs
        · exact fun v hv =>
            List.mem_append_left _ (List.mem_append_left _ (opSub_varsIn c s hs v hv))
        · exact fun v hv =>
            List.mem_append_left _ (List.mem_append_right _ (opSub_varsIn d1 s hs v hv))
      · exact fun v hv => List.mem_append_right _ (opSub_varsIn d0 s hs v hv)

theorem opSubList_varsIn : ∀ (xs : List Node) (s : Node), s ∈ opSubList xs →
    ∀ v ∈ varsIn s, v ∈ varsInList xs
  | [], s, hs => by rw [opSubList] at hs; cases hs
  | x :: xs, s, hs => by
    rw [opSubList] at hs
    rcases Finset.mem_union.mp hs with hs | hs
    · exact fun v hv => List.mem_append_left _ (opSub_varsIn x s hs v hv)
    · exact fun v hv => List.mem_append_right _ (opSubList_varsIn xs s hs v hv)

end

theorem all_map_congr (A B : Nat → Bool) (f : Node → Node) (xs : List Node)
    (h : ∀ c ∈ xs, evalNode B (f c) = evalNode A c) :
    (xs.map f).all (evalNode B) = xs.all (evalNode A) := by
  induction xs with
  | nil => rfl
  | cons x xs ih =>
    simp only [List.map_cons, List.all_cons,
      h x (List.mem_cons_self x xs),
      ih (fun c hc => h c (List.mem_cons_of_mem x hc))]

theorem any_map_congr (A B : Nat → Bool) (f : Node → Node) (xs : List Node)
    (h : ∀ c ∈ xs, evalNode B (f c) = evalNode A c) :
    (xs.map f).any (evalNode B) = xs.any (evalNode A) := by
  induction xs with
  | nil => rfl
  | cons x xs ih =>
    simp only [List.map_cons, List.any_cons,
      h x (List.mem_cons_self x xs),
      ih (fun c hc => h c (List.mem_cons_of_mem x hc))]

theorem parEval_map_congr (A B : Nat → Bool) (f : Node → Node) (xs : List Node)
    (h : ∀ c ∈ xs, evalNode B (f c) = evalNode A c) :
    parEval B (xs.map f) = parEval A xs := by
  induction xs with
  | nil => rfl
  | cons x xs ih =>
    rw [List.map_cons, parEval_cons, parEval_cons,
      h x (List.mem_cons_self x xs),
      ih (fun c hc => h c (List.mem_cons_of_mem x hc))]

theorem allnot_map_congr (A B : Nat → Bool) (f : Node → Node) (xs : List Node)
    (h : ∀ c ∈ xs, evalNode B (f c) = evalNode A c) :
    (xs.map f).all (fun x => !(evalNode B x)) = xs.all (fun x => !(evalNode A x)) := by
  induction xs with
  | nil => rfl
  | cons x xs ih =>
    simp only [List.map_cons, List.all_cons,
      h x (List.mem_cons_self x xs),
      ih (fun c hc => h c (List.mem_cons_of_mem x hc))]

/-- The builder applied to resolved operand images computes the same
function as the original operator node, whenever each image evaluates
(under `B`) as the original operand does (under `A`). -/
theorem eval_buildOp (A B : Nat → Bool) (n : Node) (hn : n.kindOf ∈ opKinds)
    (f : Node → Node)
    (h : ∀ c ∈ n.operands, evalNode B (f c) = evalNode A c) :
    evalNode B (buildOp n.kindOf (n.operands.map f)) = evalNode A n := by
  cases n with
  | zero => simp [Node.kindOf, opKinds] at hn
  | one => simp [Node.kindOf, opKinds] at hn
  | var _ => simp [Node.kindOf, opKinds] at hn
  | comp _ => simp [Node.kindOf, opKinds] at hn
  | not x =>
    show evalNode B (not_ (f x)) = evalNode A (.not x)
    rw [eval_not_, h x (by rw [Node.operands]; exact List.mem_singleton_self x)]
    rfl
  | and xs =>
    show evalNode B (and_ (xs.map f)) = evalNode A (.and xs)
    rw [eval_and_, eval_and_node, all_map_congr A B f xs h]
  | or xs =>
    show evalNode B (or_ (xs.map f)) = evalNode A (.or xs)
    rw [eval_or_, eval_or_node, any_map_congr A B f xs h]
  | xor xs =>
    show evalNode B (xor_ (xs.map f)) = evalNode A (.xor xs)
    rw [eval_xor_, eval_xor_node, parEval_map_congr A B f xs h]
  | eq xs =>
    show evalNode B (eq_ (xs.map f)) = evalNode A (.eq xs)
    rw [eval_eq_, eval_eq_node, all_map_congr A B f xs h,
      allnot_map_congr A B f xs h]
  | impl p q =>
    show evalNode B (impl_ (f p) (f q)) = evalNode A (.impl p q)
    rw [eval_impl_,
      h p (by rw [Node.operands]; exact List.mem_cons_self p [q]),
      h q (by rw [Node.operands]; exact List.mem_cons_of_mem p (List.mem_singleton_self q))]
    rfl
  | ite s d1 d0 =>
    show evalNode B (ite_ (f s) (f d1) (f d0)) = evalNode A (.ite s d1 d0)
    rw [eval_ite_,
      h s (by rw [Node.operands]; exact List.mem_cons_self s [d1, d0]),
      h d1 (by rw [Node.operands]; exact List.mem_cons_of_mem s (List.mem_cons_self d1 [d0])),
      h d0 (by rw [Node.operands]; exact List.mem_cons_of_mem s (List.mem_cons_of_mem d1 (List.mem_singleton_self d0)))]
    rfl

theorem resolve_take_mem (trips : List (Node × Node × Node)) (i : Nat) (c : Node)
    (h : c ∈ srcs (trips.take i)) :
    ∃ j, ∃ hj : j < trips.length, j < i ∧ (trips.get ⟨j, hj⟩).1 = c ∧
      resolve (trips.take i) c = (trips.get ⟨j, hj⟩).2.1 := by
  obtain ⟨t, ht, hteq, hres⟩ := resolve_mem_srcs (trips.take i) c h
  obtain ⟨j, hjlen, hjget⟩ := List.mem_iff_getElem.mp ht
  rw [List.length_take] at hjlen
  have hj : j < trips.length := lt_of_lt_of_le hjlen (Nat.min_le_right _ _)
  have hji : j < i := lt_of_lt_of_le hjlen (Nat.min_le_left _ _)
  have hget : trips.get ⟨j, hj⟩ = t := by
    rw [List.get_eq_getElem, ← hjget, List.getElem_take]
  exact ⟨j, hj, hji, by rw [hget]; exact hteq, by rw [hget]; exact hres⟩

/-- Soundness of the emitted constraints: any assignment satisfying
every `aux ⇔ constraint` equivalence gives each aux variable the
value of its source subnode. -/
theorem tinv_sound (base : Nat) (st : TState) (hinv : TInv base st)
    (B : Nat → Bool)
    (hsat : ∀ t ∈ st.trips, evalNode B t.2.1 = evalNode B t.2.2) :
    ∀ i, ∀ hi : i < st.trips.length,
      evalNode B ((st.trips.get ⟨i, hi⟩).2.1)
        = evalNode B ((st.trips.get ⟨i, hi⟩).1) := by
  intro i
  induction i using Nat.strong_induction_on with
  | _ i IH =>
    intro hi
    have hm : st.trips.get ⟨i, hi⟩ ∈ st.trips := List.get_mem _ _ _
    rw [hsat _ hm, hinv.connects i hi]
    apply eval_buildOp B B _ (hinv.ops _ hm)
    intro c hc
    rcases kind_total c with hck | hck
    · obtain ⟨j, hj, hji, hjeq, hres⟩ :=
        resolve_take_mem st.trips i c (hinv.children i hi c hc hck)
      rw [hres, IH j hji hj, hjeq]
    · rw [resolve_atom _
        (fun t ht => hinv.ops t (List.mem_of_mem_take ht)) c hck]

/-- C2: the Tseitin encoding is equisatisfiable with its input.  For
an atomic input the encoder returns the input with no constraints.
For an operator input whose variables all lie below the fresh-variable
base, an assignment `A` of the original variables satisfies the input
exactly when it is the projection (below `base`) of an assignment
satisfying the top literal together with every `aux ⇔ constraint`
equivalence. -/
theorem tseitin_equisat (root : Node) (base : Nat)
    (hbase : ∀ v ∈ varsIn root, v < base) :
    (root.kindOf ∈ atomKinds → tseitin root base = (root, []))
    ∧ (root.kindOf ∈ opKinds →
      ∀ A : Nat → Bool,
        (evalNode A root = true
          ↔ ∃ B : Nat → Bool,
              (∀ v, v < base → B v = A v)
              ∧ evalNode B (tseitin root base).1 = true
              ∧ ∀ p ∈ (tseitin root base).2,
                  evalNode B p.1 = evalNode B p.2)) := by
  constructor
  · intro h
    rw [tseitin, if_pos h]
  · intro hop A
    obtain ⟨hinv0, -, hset⟩ :=
      tvisit_spec base root ⟨base, []⟩ hop (tinv_empty base)
    have hinv : TInv base (tseitinState root base) := hinv0
    have hset' : (srcs (tseitinState root base).trips).toFinset = opSub root := by
      rw [tseitinState, hset]
      simp [srcs]
    have hrootmem : root ∈ srcs (tseitinState root base).trips := by
      rw [← List.mem_toFinset, hset']
      exact self_mem_opSub root hop
    have htse : tseitin root base
        = (resolve (tseitinState root base).trips root,
          (tseitinState root base).trips.map (fun t => (t.2.1, t.2.2))) := by
      rw [tseitin, if_neg (kind_op_not_atom root hop)]
    have hvars : ∀ t ∈ (tseitinState root base).trips, ∀ v ∈ varsIn t.1, v < base := by
      intro t ht v hv
      have hts : t.1 ∈ opSub root := by
        rw [← hset']
        exact List.mem_toFinset.mpr (List.mem_map_of_mem _ ht)
      exact hbase v (opSub_varsIn root t.1 hts v hv)
    constructor
    · intro hA
      refine ⟨fun v => if v < base then A v else
          (if hq : v - base < (tseitinState root base).trips.length then
            evalNode A (((tseitinState root base).trips.get ⟨v - base, hq⟩).1)
          else A v), fun v hv => if_pos hv, ?_, ?_⟩
      all_goals
        have hBaux : ∀ j (hj : j < (tseitinState root base).trips.length),
            (fun v => if v < base then A v else
              (if hq : v - base < (tseitinState root base).trips.length then
                evalNode A (((tseitinState root base).trips.get ⟨v - base, hq⟩).1)
              else A v)) (base + j)
            = evalNode A (((tseitinState root base).trips.get ⟨j, hj⟩).1) := by
          intro j hj
          have h1 : ¬ (base + j < base) := by omega
          have h2 : base + j - base = j := by omega
          simp only [h1, if_false, h2, hj, dif_pos]
      · rw [htse]
        obtain ⟨t, ht, hteq, hres⟩ :=
          resolve_mem_srcs (tseitinState root base).trips root hrootmem
        obtain ⟨j, hjlen, hjget⟩ := List.mem_iff_getElem.mp ht
        have hgetj : (tseitinState root base).trips.get ⟨j, hjlen⟩ = t := by
          rw [List.get_eq_getElem, hjget]
        rw [hres, ← hgetj, hinv.aux j hjlen]
        show (fun v => if v < base then A v else
            (if hq : v - base < (tseitinState root base).trips.length then
              evalNode A (((tseitinState root base).trips.get ⟨v - base, hq⟩).1)
            else A v)) (base + j) = true
        rw [hBaux j hjlen, hgetj, hteq]
        exact hA
      · rw [htse]
        intro p hp
        obtain ⟨t, ht, hpt⟩ := List.mem_map.mp hp
        obtain ⟨j, hjlen, hjget⟩ := List.mem_iff_getElem.mp ht
        have hgetj : (tseitinState root base).trips.get ⟨j, hjlen⟩ = t := by
          rw [List.get_eq_getElem, hjget]
        subst hpt
        show evalNode _ t.2.1 = evalNode _ t.2.2
        rw [← hgetj, hinv.aux j hjlen, hinv.connects j hjlen]
        have hLHS :
            evalNode (fun v => if v < base then A v else
              (if hq : v - base < (tseitinState root base).trips.length then
                evalNode A (((tseitinState root base).trips.get ⟨v - base, hq⟩).1)
              else A v)) (Node.var (base + j))
            = evalNode A (((tseitinState root base).trips.get ⟨j, hjlen⟩).1) :=
          hBaux j hjlen
        rw [hLHS]
        symm
        apply eval_buildOp A _ _
          (hinv.ops _ (List.get_mem _ _ _))
        intro c hc
        rcases kind_total c with hck | hck
        · obtain ⟨j', hj', hji', hjeq', hres'⟩ :=
            resolve_take_mem (tseitinState root base).trips j c
              (hinv.children j hjlen c hc hck)
          rw [hres', ← hjeq', hinv.aux j' hj']
          exact hBaux j' hj'
        · rw [resolve_atom _
            (fun t' ht' => hinv.ops t' (List.mem_of_mem_take ht')) c hck]
          apply evalNode_congr
          intro v hv
          have hvb : v < base :=
            hvars _ (List.get_mem _ _ _) v
              (varsIn_operand _ c hc v hv)
          exact if_pos hvb
    · rintro ⟨B, hagree, htop, hcons⟩
      rw [htse] at htop hcons
      have hsat : ∀ t ∈ (tseitinState root base).trips,
          evalNode B t.2.1 = evalNode B t.2.2 := by
        intro t ht
        exact hcons (t.2.1, t.2.2) (List.mem_map_of_mem _ ht)
      obtain ⟨t, ht, hteq, hres⟩ :=
        resolve_mem_srcs (tseitinState root base).trips root hrootmem
      obtain ⟨j, hjlen, hjget⟩ := List.mem_iff_getElem.mp ht
      have hgetj : (tseitinState root base).trips.get ⟨j, hjlen⟩ = t := by
        rw [List.get_eq_getElem, hjget]
      have hsound := tinv_sound base _ hinv B hsat j hjlen
      rw [hgetj, hteq] at hsound
      rw [hres, hsound] at htop
      rw [evalNode_congr A B root (fun v hv => (hagree v (hbase v hv)).symm)]
      exact htop

/-- Witness for `tseitin_equisat`: the scenario `(a ∨ b) ∧ (c ∨ d)`
under the all-true assignment has a satisfying extension of its
Tseitin encoding. -/
theorem tseitin_equisat_witness :
    ∃ B : Nat → Bool,
      (∀ v, v < 10 → B v = (fun _ : Nat => true) v)
      ∧ evalNode B
          (tseitin (.and [.or [.var 1, .var 2], .or [.var 3, .var 4]]) 10).1 = true
      ∧ ∀ p ∈ (tseitin (.and [.or [.var 1, .var 2], .or [.var 3, .var 4]]) 10).2,
          evalNode B p.1 = evalNode B p.2 :=
  ((tseitin_equisat (.and [.or [.var 1, .var 2], .or [.var 3, .var 4]]) 10
      (by decide)).2 (by decide) (fun _ => true)).mp (by decide)

end BoolExpr
